import Mathlib

/-!
Verification of the amphis embedded key/value store (yito88/amphis) against its
natural-language specification.

The development is a shallow embedding of the Rust sources.  Byte strings
(`Vec<u8>`) are modelled either concretely as `List Nat` (where the byte-level
layout matters, e.g. the table-file writer and the page writer) or, where the
code only compares keys/values and reads their lengths, by an arbitrary
linearly ordered type together with an explicit size function (the Rust code
uses keys and values only through `==`/`Ord` comparison, `sort`,
`binary_search` and `.len()`).  Machine integers (`usize`, `u32`) are modelled
as `Nat`; the one place where wrap-around could matter (the sparse index's
`offset - prev_offset`) is modelled with an explicit `% 2^64`.

Fallible operations return `Option`/`Except`-style results; a `panic!`,
`unwrap` on `None`, or out-of-bounds index in the Rust code is modelled as a
`none` result.

The repository contains two partially refactored iterations of a few modules;
each definition below names the exact source file it is translated from.
-/

namespace Amphis

/-! ## Data codec — `src/util/data_util.rs` -/

/-- `DATA_ALIGNMENT` from `src/util/data_util.rs` (= `1 << 12`). -/
def DATA_ALIGNMENT : Nat := 4096

/-- `LEN_SIZE` (4-byte little-endian length prefix). -/
def LEN_SIZE : Nat := 4

/-- `LEN_CRC` (4-byte little-endian CRC32 suffix). -/
def LEN_CRC : Nat := 4

/-- `LEN_REDUNDANCY = LEN_SIZE + LEN_CRC`. -/
def LEN_REDUNDANCY : Nat := LEN_SIZE + LEN_CRC

/-- `get_data_size` from `src/util/data_util.rs`:
`key_size + value_size + LEN_REDUNDANCY * 2`. -/
def get_data_size (key_size value_size : Nat) : Nat :=
  key_size + value_size + LEN_REDUNDANCY * 2

/-- `round_up_size` from `src/util/data_util.rs`:
`((size + DATA_ALIGNMENT - 1) / DATA_ALIGNMENT) * DATA_ALIGNMENT`
(Rust integer division truncates, as `Nat` division does). -/
def round_up_size (size : Nat) : Nat :=
  ((size + DATA_ALIGNMENT - 1) / DATA_ALIGNMENT) * DATA_ALIGNMENT

/-- Little-endian encoding of `n` on `w` bytes (`u32::to_le_bytes` is
`toLeBytes 4`).  Bytes are `Nat`s below 256. -/
def toLeBytes (w n : Nat) : List Nat :=
  match w with
  | 0 => []
  | w + 1 => n % 256 :: toLeBytes w (n / 256)

/-- One step of the bitwise CRC-32/IEEE update (reflected polynomial
`0xEDB88320`), iterated 8 times per byte. -/
def crc32Step (c : Nat) : Nat :=
  if c % 2 = 1 then Nat.xor (c / 2) 0xEDB88320 else c / 2

/-- CRC-32/IEEE of a byte list, as computed by the `crc` crate's
`crc32::Digest::new(crc32::IEEE)` used in `calc_crc`
(`src/util/data_util.rs`). -/
def calc_crc (data : List Nat) : Nat :=
  Nat.xor
    (data.foldl
      (fun c b =>
        (crc32Step ∘ crc32Step ∘ crc32Step ∘ crc32Step ∘
         crc32Step ∘ crc32Step ∘ crc32Step ∘ crc32Step)
          (Nat.xor c (b % 256)))
      (Nat.xor 0xFFFFFFFF 0))
    0xFFFFFFFF

/-- `format_data_with_crc` from `src/util/data_util.rs`: the encoded key/value
pair `| key.len (4B LE) | key | crc(key) (4B LE) | value.len | value | crc |`. -/
def format_data_with_crc (key value : List Nat) : List Nat :=
  toLeBytes 4 key.length ++ key ++ toLeBytes 4 (calc_crc key) ++
  toLeBytes 4 value.length ++ value ++ toLeBytes 4 (calc_crc value)

end Amphis

namespace Amphis.SpIdx

/-! ## Sparse index — `src/sparse_index.rs` and `src/sstable/sparse_index.rs`
(the two copies have identical `insert`/`get` logic; the top-level one
additionally carries a `table_id`, which plays no role in either operation).

The `BTreeMap<Vec<u8>, usize>` is modelled as an association list kept sorted
by key.  `prev_offset: usize` starts at the sentinel `usize::MAX`; `usize`
subtraction is modelled with the release-mode wrap-around `% 2^64`. -/

/-- `LEAST_OFFSET = 1 << 18`. -/
def LEAST_OFFSET : Nat := 262144

/-- `usize::MAX`, the initial sentinel of `prev_offset`. -/
def USIZE_MAX : Nat := 2 ^ 64 - 1

/-- Release-mode `usize` subtraction (two's-complement wrap-around). -/
def usizeSub (a b : Nat) : Nat := (a + 2 ^ 64 - b % 2 ^ 64) % 2 ^ 64

variable {K : Type} [LinearOrder K]

/-- The `SparseIndex` state: `prev_offset` and the ordered map, the latter as
a key-sorted association list. -/
structure SparseIndex (K : Type) where
  prev_offset : Nat
  index : List (K × Nat)
  deriving Repr

/-- `SparseIndex::new()`: empty map, `prev_offset = usize::MAX`. -/
def new : SparseIndex K := ⟨USIZE_MAX, []⟩

/-- `BTreeMap::insert` on the sorted-association-list model: replace the
binding of `key` if present, otherwise insert at its sort position. -/
def btInsert (key : K) (off : Nat) : List (K × Nat) → List (K × Nat)
  | [] => [(key, off)]
  | (k', o') :: t =>
    if key < k' then (key, off) :: (k', o') :: t
    else if key = k' then (key, off) :: t
    else (k', o') :: btInsert key off t

/-- `SparseIndex::insert`: keep the entry iff this is the first insertion
(`prev_offset == usize::MAX`) or `offset - prev_offset >= LEAST_OFFSET`;
a kept entry updates `prev_offset`. -/
def insert (s : SparseIndex K) (key : K) (offset : Nat) : SparseIndex K :=
  if s.prev_offset = USIZE_MAX ∨ LEAST_OFFSET ≤ usizeSub offset s.prev_offset
  then ⟨offset, btInsert key offset s.index⟩
  else s

/-- `BTreeMap::get` on the model. -/
def btGet (key : K) : List (K × Nat) → Option Nat
  | [] => none
  | (k', o') :: t => if key = k' then some o' else btGet key t

/-- `SparseIndex::get`: the exact binding if present, otherwise the binding of
the greatest strictly smaller key (`index.range(..key).last()`); `none` models
the `unwrap()` panic when no key `≤ key` is present. -/
def get (s : SparseIndex K) (key : K) : Option Nat :=
  match btGet key s.index with
  | some offset => some offset
  | none => ((s.index.filter (fun e => e.1 < key)).getLast?).map (·.2)

end Amphis.SpIdx

namespace Amphis.LeafMgr

/-! ## Page writes — `src/fptree/leaf_manager/mod.rs` with
`src/fptree/leaf_manager/types.rs` (`LeafManager::write_data`)

The leaves file is modelled as a total byte map `Nat → Nat` (the mmap'ed
file; bytes are `u8` values).  `write_data` either refuses (the new aligned
tail would pass `END_TAIL_OFFSET`) or overwrites `data_size` bytes at
`id * LEAF_SIZE + offset` with the encoded pair and returns the new aligned
tail. -/

/-- `LEAF_SIZE = 1024 * 1024` (`types.rs`; this generation of the leaf
manager uses 1 MiB pages). -/
def LEAF_SIZE : Nat := 1024 * 1024

/-- `END_TAIL_OFFSET = LEAF_SIZE - DATA_ALIGNMENT` (`types.rs`). -/
def END_TAIL_OFFSET : Nat := LEAF_SIZE - Amphis.DATA_ALIGNMENT

/-- `mmap.copy_from_slice(&data)` on the byte map: overwrite
`data.length` bytes starting at `pos`. -/
def writeBytes (file : Nat → Nat) (pos : Nat) (data : List Nat) :
    Nat → Nat :=
  fun a => if pos ≤ a ∧ a < pos + data.length then data.getD (a - pos) 0
    else file a

/-- `LeafManager::write_data(id, offset, key, value)`: refuse (`Ok(None)`)
when `offset + round_up_size(get_data_size(key.len, value.len))` exceeds
`END_TAIL_OFFSET`; otherwise write `format_data_with_crc(key, value)` at
byte `id * LEAF_SIZE + offset` and return the new aligned tail. -/
def write_data (file : Nat → Nat) (id offset : Nat)
    (key value : List Nat) : Option ((Nat → Nat) × Nat) :=
  let data_size := Amphis.get_data_size key.length value.length
  let aligned_tail := offset + Amphis.round_up_size data_size
  if END_TAIL_OFFSET < aligned_tail then none
  else some (writeBytes file (id * LEAF_SIZE + offset)
      (Amphis.format_data_with_crc key value), aligned_tail)

end Amphis.LeafMgr



namespace Amphis.InnerNode

/-! ## Inner node — `src/fptree/inner.rs`

`keys: Vec<Vec<u8>>` is modelled over an arbitrary linearly ordered key type
`K`; `children: Vec<Arc<RwLock<dyn Node>>>` over an abstract child type `C`
(`insert` uses the chosen child only to read its `next` pointer via
`child.get_next().unwrap()`, a heap traversal; the model takes that sibling as
the explicit argument `new_child`).  The transient `next` pointer of an inner
is part of the model, as an optional nested inner. -/

/-- `FANOUT` from `src/fptree/inner.rs`. -/
def FANOUT : Nat := 3

/-- An inner node: sorted separator keys, child references, the transient
`next` sibling pointer, and the root flag. -/
inductive Inner (K C : Type) where
  | mk (keys : List K) (children : List C) (next : Option (Inner K C))
      (is_root : Bool)

variable {K C : Type} [LinearOrder K]

def Inner.keys : Inner K C → List K
  | .mk ks _ _ _ => ks

def Inner.children : Inner K C → List C
  | .mk _ cs _ _ => cs

def Inner.next : Inner K C → Option (Inner K C)
  | .mk _ _ n _ => n

def Inner.isRoot : Inner K C → Bool
  | .mk _ _ _ r => r

/-- `slice::binary_search` (used by `get_child` and `insert`): the standard
two-pointer loop.  `mid = left + (right - left)/2`; a `Less` comparison of
`keys[mid]` against `key` moves `left` past `mid`, `Greater` moves `right`
down to `mid`, equality returns `Ok(mid)`; exhaustion returns `Err(left)`. -/
def binarySearchAux (keys : List K) (key : K) :
    Nat → Nat → Nat → Sum Nat Nat
  | 0, left, _ => Sum.inr left
  | fuel + 1, left, right =>
    if left < right then
      let mid := left + (right - left) / 2
      match keys.get? mid with
      | none => Sum.inr left
      | some km =>
        if km < key then binarySearchAux keys key fuel (mid + 1) right
        else if key < km then binarySearchAux keys key fuel left mid
        else Sum.inl mid
    else Sum.inr left
  termination_by structural fuel => fuel

/-- `keys.binary_search(key)`: `Sum.inl i` is `Ok(i)` (exact match at index
`i`), `Sum.inr j` is `Err(j)` (insertion point `j`).  The interval shrinks
strictly every iteration, so `keys.length + 1` evaluation steps always
suffice. -/
def binarySearch (keys : List K) (key : K) : Sum Nat Nat :=
  binarySearchAux keys key (keys.length + 1) 0 keys.length

/-- `get_child`'s index computation: `Ok(i) => i + 1`, `Err(i) => i`. -/
def childIdx (keys : List K) (key : K) : Nat :=
  match binarySearch keys key with
  | Sum.inl i => i + 1
  | Sum.inr i => i

/-- `Inner::need_split`: `keys.len() > FANOUT`. -/
def Inner.need_split (n : Inner K C) : Prop := FANOUT < n.keys.length

instance (n : Inner K C) : Decidable n.need_split := by
  unfold Inner.need_split; infer_instance

/-- `Inner::split`: `split_off` the keys at `(FANOUT + 1) / 2` and the
children one past it; the first split-off key is returned upward, the
remaining split-off keys and children form the new inner; the new inner
inherits `self.next` and becomes `self.next`.  `none` models the
`new_keys.first().unwrap()` panic on an undersized node. -/
def Inner.split (n : Inner K C) : Option (Inner K C × K) :=
  let c := (FANOUT + 1) / 2
  let new_keys := n.keys.drop c
  match new_keys.head? with
  | none => none
  | some split_key =>
    let new_inner : Inner K C :=
      .mk (new_keys.drop 1) (n.children.drop (c + 1)) n.next false
    match n with
    | .mk ks cs _ root =>
      some (.mk (ks.take c) (cs.take (c + 1)) (some new_inner) root,
        split_key)

/-- The body of `Inner::insert` after `get_child` succeeded: binary-search
`inserted_key` (panic — `none` — on an exact match), insert the key at its
sort position and `new_child` one past it (`push` when the position is at or
beyond the end), and split when `keys.len() > FANOUT`. -/
def Inner.insertAt (n : Inner K C) (inserted_key : K) (new_child : C) :
    Option (Inner K C × Option K) :=
  match binarySearch n.keys inserted_key with
  | Sum.inl _ => none
  | Sum.inr i =>
    let keys' := n.keys.insertIdx i inserted_key
    let children' :=
      if n.children.length ≤ i + 1 then n.children ++ [new_child]
      else n.children.insertIdx (i + 1) new_child
    let n' : Inner K C :=
      match n with
      | .mk _ _ nx root => .mk keys' children' nx root
    if n'.need_split then (n'.split).map (fun p => (p.1, some p.2))
    else some (n', none)

/-- `Inner::insert(key, inserted_key)`: look up the routing child (panic if
`get_child` yields none or indexes out of bounds), then `Inner.insertAt`.
`new_child` stands for `child.get_next().unwrap()`. -/
def Inner.insert (n : Inner K C) (key inserted_key : K) (new_child : C) :
    Option (Inner K C × Option K) :=
  let idx := childIdx n.keys key
  if idx = n.children.length then
    if n.next.isNone then none else Inner.insertAt n inserted_key new_child
  else if n.children.length < idx then none
  else Inner.insertAt n inserted_key new_child

end Amphis.InnerNode


namespace Amphis.Tree

/-! ## Leaf nodes and the FPTree — `src/fptree/leaf.rs`,
`src/fptree/leaf_manager.rs`, `src/fptree/inner.rs`, `src/fptree/mod.rs`,
`src/fptree_manager.rs`, `src/kvs.rs`

`src/fptree/leaf.rs` type-checks against the single-file
`src/fptree/leaf_manager.rs` iteration (`need_split(data_size)`,
`need_reclamation`, infallible `write_data`, 3-field `kv_info`), so the leaf
model follows that pair.  Keys and values are abstract linearly ordered types
with explicit size functions (`key.len()` / `value.len()`); the 8-bit
fingerprint hash (`DefaultHasher`) is an arbitrary function parameter `hash`.

A leaf's storage is modelled at slot granularity: an occupied slot holds its
fingerprint together with the key/value bytes its `kv_info` points to (the
data arena write happens at `write_data` time and is only ever read back
through a valid slot, so the pair can live in the slot itself).  A cleared
slot is `none`: its stale fingerprint/kv_info are never observable (`get`,
`get_kv_pairs` and `invalidate_data` all test `is_slot_set` first, and
`insert` overwrites all three fields before setting the bit).

Each Rust `Leaf` object owns an in-RAM `LeafHeader` and the page manager
holds the *committed* mmap copy (updated by `commit_header`); the flush
writer reads the committed copies.  A `LeafObj` carries both.  The heap is a
list of leaf objects; `next` pointers are heap positions (object identity —
`Arc<RwLock<Leaf>>`).  Out-of-range arena writes (the old-iteration
`write_data` has no bounds check, so a tail beyond `LEAF_SIZE` silently
writes into the next page's on-disk region) are not byte-modelled; no trace
evaluated below performs one except where explicitly noted as irrelevant to
the in-memory statement. -/

/-- `NUM_SLOT` from `src/fptree/leaf_manager.rs`. -/
def NUM_SLOT : Nat := 32

/-- `LEAF_SIZE = 256 * 1024` from `src/fptree/leaf_manager.rs`. -/
def LEAF_SIZE : Nat := 262144

/-- `RECLAMATION_THRESHOLD = LEAF_SIZE / 2`. -/
def RECLAMATION_THRESHOLD : Nat := 131072

/-- `INITIAL` tail offset: `data_utility::DATA_ALIGNMENT`. -/
def INITIAL_TAIL : Nat := 4096

variable {K V : Type} [LinearOrder K] [LinearOrder V]

/-- The in-RAM `LeafHeader` state of one leaf: the slot array (bitmap bit +
fingerprint + the key/value pair the slot's `kv_info` locates), the
`tail_offset`, and the `next` sibling (heap position / `u32::MAX` sentinel as
`none`). -/
structure LeafM (K V : Type) where
  slots : List (Option (Nat × K × V))
  tail : Nat
  next : Option Nat
  deriving DecidableEq, Repr

/-- `LeafHeader::new()`: clear bitmap, no next, `tail_offset = DATA_ALIGNMENT`. -/
def LeafM.new : LeafM K V :=
  ⟨List.replicate NUM_SLOT none, INITIAL_TAIL, none⟩

/-- A leaf object: the Rust `Leaf`'s own header (`ram`) plus the page
manager's committed mmap copy (`committed`, what `get_header` returns). -/
structure LeafObj (K V : Type) where
  ram : LeafM K V
  committed : LeafM K V
  deriving DecidableEq, Repr

/-- A freshly allocated leaf (`Leaf::new`).  The committed copy of a page
that has never been `commit_header`ed is unspecified on disk; the model uses
the fresh header (never observed before a commit in the traces below). -/
def LeafObj.fresh : LeafObj K V := ⟨LeafM.new, LeafM.new⟩

variable (sizeK : K → Nat) (sizeV : V → Nat) (hash : K → Nat)

/-- `Leaf::get_existing_slots`: ascending indices of occupied slots whose
fingerprint matches `hash(key)`. -/
def getExistingSlots (l : LeafM K V) (k : K) : List Nat :=
  (l.slots.enum.filter fun e =>
    match e.2 with
    | some (fp, _, _) => fp = hash k
    | none => false).map (·.1)

/-- `Leaf::get`: scan the fingerprint-matching occupied slots in ascending
order, return the first whose stored key equals `key`. -/
def leafGet (l : LeafM K V) (k : K) : Option V :=
  (getExistingSlots hash l k).findSome? fun i =>
    match l.slots.get? i with
    | some (some (_, k', v)) => if k' = k then some v else none
    | _ => none

/-- `Leaf::invalidate_data`: clear the bitmap bit of the first
fingerprint-matching occupied slot whose stored key equals `key`. -/
def invalidate (l : LeafM K V) (k : K) : LeafM K V :=
  match (getExistingSlots hash l k).find? fun i =>
    match l.slots.get? i with
    | some (some (_, k', _)) => k' = k
    | _ => false with
  | some i => { l with slots := l.slots.set i none }
  | none => l

/-- `LeafHeader::need_split(data_size)`: no space
(`LEAF_SIZE < tail_offset + data_size`) or full bitmap. -/
def needSplit (l : LeafM K V) (dataSize : Nat) : Bool :=
  decide (LEAF_SIZE < l.tail + dataSize) || l.slots.all Option.isSome

/-- The occupied `(fp, key, value)` entries in ascending slot order. -/
def occupiedEntries (l : LeafM K V) : List (Nat × K × V) :=
  l.slots.filterMap id

/-- `Leaf::get_kv_pairs`: occupied `(key, value, slot)` triples in ascending
slot order. -/
def getKvPairs (l : LeafM K V) : List (K × V × Nat) :=
  l.slots.enum.filterMap fun e => e.2.map fun p => (p.2.1, p.2.2, e.1)

/-- The valid-data byte count of `need_reclamation`: the rounded encoded
sizes of all occupied slots. -/
def validSize (l : LeafM K V) : Nat :=
  ((occupiedEntries l).map fun p =>
    Amphis.round_up_size (Amphis.get_data_size (sizeK p.2.1) (sizeV p.2.2))).sum

/-- `LeafHeader::need_reclamation`: tail at least `RECLAMATION_THRESHOLD` and
valid data below half the tail.  (`(tail as f32 * 0.5) as usize` equals
`tail / 2` exactly for every tail below `2^25`, far above any tail reachable
here.) -/
def needReclamation (l : LeafM K V) : Bool :=
  decide (RECLAMATION_THRESHOLD ≤ l.tail) &&
    decide (validSize sizeK sizeV l < l.tail / 2)

/-- `LeafHeader::get_empty_slot`: the lowest clear slot index. -/
def getEmptySlot (l : LeafM K V) : Option Nat :=
  (l.slots.enum.find? fun e => e.2.isNone).map (·.1)

/-- `Leaf::reclaim`: rewrite the occupied pairs (ascending slot order,
fingerprints copied) into slots `0..`, with the tail rebuilt from
`INITIAL_TAIL` by the successive `write_data` calls; `next` is carried over.
The Rust code moves the leaf to a freshly allocated page id and deallocates
the old one; the model tracks the object under its current page, so the
cleared page left behind (unreferenced by the in-memory tree) is dropped. -/
def reclaim (l : LeafM K V) : LeafM K V :=
  let entries := occupiedEntries l
  { slots := (List.range NUM_SLOT).map fun i => entries.get? i
    tail := INITIAL_TAIL +
      ((entries.map fun p =>
        Amphis.round_up_size
          (Amphis.get_data_size (sizeK p.2.1) (sizeV p.2.2))).sum)
    next := l.next }

/-- The comparison `Vec<(Vec<u8>, Vec<u8>, usize)>::sort` sorts by:
`(key, value, slot)` lexicographically. -/
def tripleLe (a b : K × V × Nat) : Prop :=
  a.1 < b.1 ∨ (a.1 = b.1 ∧ (a.2.1 < b.2.1 ∨ (a.2.1 = b.2.1 ∧ a.2.2 ≤ b.2.2)))

instance : DecidableRel (tripleLe (K := K) (V := V)) := by
  unfold tripleLe
  infer_instance

/-- `kv_pairs.sort()` in `Leaf::split` (Rust's stable sort; insertion sort is
also stable, and the relation is a total preorder, so the results agree). -/
def sortTriples (l : List (K × V × Nat)) : List (K × V × Nat) :=
  l.insertionSort tripleLe

end Amphis.Tree

namespace Amphis.Tree

variable {K V : Type} [LinearOrder K] [LinearOrder V]
variable (sizeK : K → Nat) (sizeV : V → Nat) (hash : K → Nat)

/-- The heap of leaf objects; a leaf's id is its position (object identity). -/
abbrev Heap (K V : Type) := List (LeafObj K V)

/-- Update the in-RAM header of leaf `i`. -/
def updRam (h : Heap K V) (i : Nat) (f : LeafM K V → LeafM K V) : Heap K V :=
  match h.get? i with
  | some obj => h.set i { obj with ram := f obj.ram }
  | none => h

/-- `commit_header(i, &header)`: copy leaf `i`'s RAM header to the manager. -/
def commitLeaf (h : Heap K V) (i : Nat) : Heap K V :=
  match h.get? i with
  | some obj => h.set i { obj with committed := obj.ram }
  | none => h

/-- The slot-write-and-commit tail of `Leaf::insert` (runs whenever the
insert was not routed away): on `Some(slot)` from `get_empty_slot`, write the
pair at the tail, set bit/fingerprint/kv_info, advance the tail by the
aligned encoded size, and `commit_header`; on `None` nothing happens. -/
def writeSlot (h : Heap K V) (i : Nat) (k : K) (v : V) : Heap K V :=
  match h.get? i with
  | none => h
  | some obj =>
    match getEmptySlot obj.ram with
    | none => h
    | some slot =>
      let tail' := obj.ram.tail +
        Amphis.round_up_size (Amphis.get_data_size (sizeK k) (sizeV v))
      let ram' : LeafM K V :=
        { slots := obj.ram.slots.set slot (some (hash k, k, v))
          tail := tail'
          next := obj.ram.next }
      commitLeaf (h.set i { obj with ram := ram' }) i

mutual

/-- `Leaf::insert` (`src/fptree/leaf.rs`), fuelled (the Rust recursion can
diverge when a routed insert splits again with oversized data; exhausted fuel
is `none`, as are the panics: `kv_pairs[new_first]` on an empty leaf and
`get_next().unwrap()`).  Invalidate the old version of `key`; reclaim if
warranted (`reclaim` itself commits); if `need_split(key.len + value.len)`,
split, and when `split_key < key` hand the pair to the new sibling (whose own
result is discarded — the `// TODO: when the new leaf is split` line) and
return `Some(split_key)` without committing; otherwise write the pair via
`writeSlot` and return the split key if one arose. -/
def leafInsert (sizeK : K → Nat) (sizeV : V → Nat) (hash : K → Nat) :
    Nat → Heap K V → Nat → K → V → Option (Heap K V × Option K)
  | 0, _, _, _, _ => none
  | fuel + 1, h, i, k, v =>
    match h.get? i with
    | none => none
    | some obj =>
      let l1 := invalidate hash obj.ram k
      let reclaimed := needReclamation sizeK sizeV l1
      let l2 := if reclaimed then reclaim sizeK sizeV l1 else l1
      let h1 := updRam h i fun _ => l2
      let h2 := if reclaimed then commitLeaf h1 i else h1
      if needSplit l2 (sizeK k + sizeV v) then
        match leafSplit sizeK sizeV hash fuel h2 i with
        | none => none
        | some (h3, splitKey) =>
          match (h3.get? i).bind fun o => o.ram.next with
          | none => none
          | some sib =>
            if splitKey < k then
              match leafInsert sizeK sizeV hash fuel h3 sib k v with
              | none => none
              | some (h4, _) => some (h4, some splitKey)
            else
              some (writeSlot sizeK sizeV hash h3 i k v, some splitKey)
      else
        some (writeSlot sizeK sizeV hash h2 i k v, none)
  termination_by structural fuel => fuel

/-- `Leaf::split`: allocate a fresh leaf at the end of the heap, sort the
occupied `(key, value, slot)` triples, move the upper half (from `len / 2`)
into the new leaf one insert at a time while clearing the moved slots, splice
the new leaf after `self` (it inherits `self`'s `next`), and return the key
at index `len / 2`. -/
def leafSplit (sizeK : K → Nat) (sizeV : V → Nat) (hash : K → Nat) :
    Nat → Heap K V → Nat → Option (Heap K V × K)
  | 0, _, _ => none
  | fuel + 1, h, i =>
    match h.get? i with
    | none => none
    | some obj =>
      let n := h.length
      let h1 := h ++ [LeafObj.fresh]
      let pairs := sortTriples (getKvPairs obj.ram)
      let new_first := pairs.length / 2
      match pairs.get? new_first with
      | none => none
      | some p =>
        match moveLoop sizeK sizeV hash fuel h1 i n (pairs.drop new_first)
          with
        | none => none
        | some h2 =>
          let h3 := updRam h2 n fun l =>
            { l with next := (h2.get? i).bind fun o => o.ram.next }
          let h4 := updRam h3 i fun l => { l with next := some n }
          some (h4, p.1)
  termination_by structural fuel => fuel

/-- The `for (k, v, slot) in kv_pairs.split_off(new_first)` loop of
`Leaf::split`: insert each moved pair into the new leaf and clear its slot in
`self`. -/
def moveLoop (sizeK : K → Nat) (sizeV : V → Nat) (hash : K → Nat) :
    Nat → Heap K V → Nat → Nat → List (K × V × Nat) → Option (Heap K V)
  | _, h, _, _, [] => some h
  | 0, _, _, _, _ :: _ => none
  | fuel + 1, h, selfIdx, newIdx, (k, v, slot) :: rest =>
    match leafInsert sizeK sizeV hash fuel h newIdx k v with
    | none => none
    | some (h1, _) =>
      let h2 := updRam h1 selfIdx fun l =>
        { l with slots := l.slots.set slot none }
      moveLoop sizeK sizeV hash fuel h2 selfIdx newIdx rest
  termination_by structural fuel => fuel

end

end Amphis.Tree

namespace Amphis.Tree

variable {K V : Type} [LinearOrder K] [LinearOrder V]
variable (sizeK : K → Nat) (sizeV : V → Nat) (hash : K → Nat)

/-- Builds a slot array of `n` entries from the occupied positions: entry
`(i, fp, k, v)` puts `some (fp, k, v)` at index `i` (used to write concrete
leaf states compactly). -/
def slotsOf (n : Nat) (l : List (Nat × Nat × K × V)) :
    List (Option (Nat × K × V)) :=
  (List.range n).map fun i => (l.find? fun e => e.1 = i).map (·.2)

/-- The occupied `(key, value)` pairs of a leaf header in slot order. -/
def leafPairs (l : LeafM K V) : List (K × V) :=
  (occupiedEntries l).map (·.2)

/-- The in-RAM sibling chain walked from leaf `i` (fuelled; the chain of a
well-formed heap is acyclic and shorter than the heap). -/
def chainFrom : Nat → Heap K V → Nat → List (LeafM K V)
  | 0, _, _ => []
  | fuel + 1, h, i =>
    match h.get? i with
    | none => []
    | some obj =>
      obj.ram ::
        (match obj.ram.next with
         | none => []
         | some j => chainFrom fuel h j)

/-- The concatenation, in `next`-chain order from leaf `i`, of each leaf's
sorted occupied keys (the object of spec §8 invariant 5). -/
def chainSortedKeys (fuel : Nat) (h : Heap K V) (i : Nat) : List K :=
  (chainFrom fuel h i).flatMap fun l =>
    ((leafPairs l).map (·.1)).insertionSort (· ≤ ·)

/-- All `(key, value)` pairs in the chain from leaf `i`, in chain-then-slot
order. -/
def chainPairs (fuel : Nat) (h : Heap K V) (i : Nat) : List (K × V) :=
  (chainFrom fuel h i).flatMap leafPairs

/-- A tree node: a leaf reference (heap position) or an inner node
(`src/fptree/inner.rs`: sorted separators and child references; the inner's
transient `next` pointer is only ever read back through
`child.get_next()` immediately after that child's split, which the model
returns directly, and through the `get_child` fallback, unreachable while
`children.len = keys.len + 1`, so it is not part of the tree model). -/
inductive FpNode (K : Type) where
  | leaf (i : Nat)
  | inner (keys : List K) (children : List (FpNode K))
  deriving Repr

open Amphis.InnerNode in
/-- One `put` descent (`FPTree::put` phases 1–2 of `src/fptree/mod.rs`,
recursively): route by `get_child` down to a leaf, `Leaf::insert` there, and
unwind `Inner::insert(key, split_key)` while splits propagate
(`src/fptree/inner.rs`).  Returns the new heap, the rewritten node, and
`some (split_key, new_sibling)` when this node split.  The lock-coupling
"safe node" pruning of phase 1 drops exactly the ancestors whose `insert`
would return `None` (a node with `may_need_split() = false` cannot split on
one insert), so the recursive unwinding is behaviourally identical.  `none`
models the panics (`get_child(..).unwrap()`, `get_next().unwrap()`,
`Inner::insert`'s exact-match `panic!`, and the leaf panics). -/
def treeInsert :
    Nat → Heap K V → FpNode K → K → V →
      Option (Heap K V × FpNode K × Option (K × FpNode K))
  | 0, _, _, _, _ => none
  | fuel + 1, h, .leaf i, k, v =>
    match leafInsert sizeK sizeV hash fuel h i k v with
    | none => none
    | some (h1, none) => some (h1, .leaf i, none)
    | some (h1, some sk) =>
      match (h1.get? i).bind fun o => o.ram.next with
      | none => none
      | some sib => some (h1, .leaf i, some (sk, .leaf sib))
  | fuel + 1, h, .inner keys children, k, v =>
    match children.get? (childIdx keys k) with
    | none => none
    | some child =>
      match treeInsert fuel h child k v with
      | none => none
      | some (h1, child', osplit) =>
        let children1 := children.set (childIdx keys k) child'
        match osplit with
        | none => some (h1, .inner keys children1, none)
        | some (sk, newChild) =>
          match binarySearch keys sk with
          | Sum.inl _ => none
          | Sum.inr ipos =>
            let keys' := keys.insertIdx ipos sk
            let children2 :=
              if children1.length ≤ ipos + 1 then children1 ++ [newChild]
              else children1.insertIdx (ipos + 1) newChild
            if FANOUT < keys'.length then
              let c := (FANOUT + 1) / 2
              match (keys'.drop c).head? with
              | none => none
              | some sk' =>
                some (h1, .inner (keys'.take c) (children2.take (c + 1)),
                  some (sk', .inner (keys'.drop (c + 1))
                    (children2.drop (c + 1))))
            else some (h1, .inner keys' children2, none)
  termination_by structural fuel => fuel

open Amphis.InnerNode in
/-- `FPTree::get`: route by `get_child` down to a leaf and `Leaf::get` there
(`none` both for a missing key and for the `get_child(..).unwrap()` panic on
a malformed node). -/
def treeGet : Nat → Heap K V → FpNode K → K → Option V
  | 0, _, _, _ => none
  | _ + 1, h, .leaf i, k => (h.get? i).bind fun obj => leafGet hash obj.ram k
  | fuel + 1, h, .inner keys children, k =>
    match children.get? (childIdx keys k) with
    | none => none
    | some child => treeGet fuel h child k
  termination_by structural fuel => fuel

/-- An `FPTree` (`src/fptree/mod.rs`): the root node, the leaf heap of its
generation (head leaf at position 0), and `root_split_count`. -/
structure FpTree (K V : Type) where
  root : FpNode K
  heap : Heap K V
  rootSplitCount : Nat
  deriving Repr

/-- `FPTree::new`: a single fresh head leaf as root. -/
def FpTree.new : FpTree K V :=
  ⟨.leaf 0, [LeafObj.fresh], 0⟩

/-- `FPTree::put`: run the descent; if the root itself reports a split,
`split_root` publishes a new root inner with the returned key and the old
root plus its new sibling as children, and bumps `root_split_count`. -/
def treePut (fuel : Nat) (t : FpTree K V) (k : K) (v : V) :
    Option (FpTree K V) :=
  match treeInsert sizeK sizeV hash fuel t.heap t.root k v with
  | none => none
  | some (h1, root', none) => some ⟨root', h1, t.rootSplitCount⟩
  | some (h1, root', some (sk, sib)) =>
    some ⟨.inner [sk] [root', sib], h1, t.rootSplitCount + 1⟩

end Amphis.Tree

namespace Amphis.Sst

/-! ## SSTable lookup — `src/sstable_manager.rs` (`SstableManager::get`,
`get_from_table`) and `src/sstable/sstable_manager.rs` (identical `get`
logic)

A registered table is its id, its bloom filter reduced to its `check`
function (an arbitrary boolean predicate — a bloom filter may report false
positives), its sparse index, and the table file's contents.  The table file
is a raw concatenation of `format(key, value)` encodings, so it is carried as
the pair list; `get_from_table`'s `seek(offset)` followed by a sequential
record scan is modelled by dropping the pairs whose byte start precedes
`offset` (the offsets handed to it come from the sparse index and are record
boundaries) and scanning the rest until the key matches (its value) or EOF
(`none`). -/

variable {K V : Type} [LinearOrder K] [LinearOrder V]
variable (sizeK : K → Nat) (sizeV : V → Nat)

/-- A registered table (one entry of the `filters`/`indexes` maps plus its
table file). -/
structure TableEntry (K V : Type) where
  id : Nat
  check : K → Bool
  index : Amphis.SpIdx.SparseIndex K
  pairs : List (K × V)

/-- Each pair of a table file annotated with the byte offset at which its
encoding begins (`get_data_size` bytes per pair, packed). -/
def pairStarts : List (K × V) → Nat → List (Nat × K × V)
  | [], _ => []
  | (k, v) :: t, off =>
    (off, k, v) ::
      pairStarts t (off + Amphis.get_data_size (sizeK k) (sizeV v))

/-- `SstableManager::get_from_table`: seek to `off`, then scan records
forward until the key matches (return its value) or EOF (`none`). -/
def tableLookup (pairs : List (K × V)) (off : Nat) (key : K) : Option V :=
  ((pairStarts sizeK sizeV pairs 0).dropWhile fun e =>
      decide (e.1 < off)).findSome?
    fun e => if e.2.1 = key then some e.2.2 else none

/-- The loop of `SstableManager::get` over tables already placed in
descending-id order (`filters.read().iter().rev()`): skip a table whose
filter check fails; otherwise look the key up from the sparse-index offset;
a hit returns, a miss falls through to the next table.  The outer `none`
models the `index.get` panic (no indexed key `≤ key`). -/
def sstableGetDesc : List (TableEntry K V) → K → Option (Option V)
  | [], _ => some none
  | t :: rest, key =>
    if t.check key then
      match Amphis.SpIdx.get t.index key with
      | none => none
      | some off =>
        match tableLookup sizeK sizeV t.pairs off key with
        | some v => some (some v)
        | none => sstableGetDesc rest key
    else sstableGetDesc rest key

/-- `SstableManager::get`: iterate the id-keyed `BTreeMap` (ascending by id)
in reverse. -/
def sstableGet (tables : List (TableEntry K V)) (key : K) :
    Option (Option V) :=
  sstableGetDesc sizeK sizeV tables.reverse key

/-- Whether the table file holds a record for `key`. -/
def tableHas (t : TableEntry K V) (key : K) : Prop :=
  key ∈ t.pairs.map (·.1)

instance (t : TableEntry K V) (key : K) : Decidable (tableHas t key) := by
  unfold tableHas
  infer_instance

/-- The value the table file holds for `key` (its first record; the flush
writer emits each key at most once per table). -/
def tableVal (t : TableEntry K V) (key : K) : Option V :=
  (t.pairs.find? fun p => decide (p.1 = key)).map (·.2)

/-- The byte offset at which `key`'s record begins in a table file. -/
def keyStart (pairs : List (K × V)) (key : K) : Option Nat :=
  ((pairStarts sizeK sizeV pairs 0).find? fun e => decide (e.2.1 = key)).map
    (·.1)

/-- The index/offset part of table well-formedness, as one computable check:
the sparse index must resolve `key` (no `unwrap` panic), to an offset no
later than `key`'s record start when the table holds `key`. -/
def wfOffB (t : TableEntry K V) (key : K) : Bool :=
  match Amphis.SpIdx.get t.index key, keyStart sizeK sizeV t.pairs key with
  | some off, some s => decide (off ≤ s)
  | some _, none => true
  | none, _ => false

/-- Well-formedness of one registered table for looking up `key`, as
`register` establishes it: the bloom filter has no false negative; whenever
the filter passes, the sparse index resolves `key` to an offset at or before
`key`'s record (the flush writer indexes a subset of the ascending record
starts); and the table file holds each key at most once. -/
def wfLookup (t : TableEntry K V) (key : K) : Prop :=
  (tableHas t key → t.check key = true) ∧
  (t.check key = true → wfOffB sizeK sizeV t key = true) ∧
  (t.pairs.map (·.1)).Nodup

instance (t : TableEntry K V) (key : K) :
    Decidable (wfLookup sizeK sizeV t key) := by
  unfold wfLookup
  infer_instance

end Amphis.Sst

namespace Amphis.Tree

variable {K V : Type} [LinearOrder K] [LinearOrder V]
variable (sizeK : K → Nat) (sizeV : V → Nat) (hash : K → Nat)

/-- The comparison of `Vec<(Vec<u8>, Vec<u8>)>::sort` in `flush_kv`:
`(key, value)` lexicographically. -/
def pairLe (a b : K × V) : Prop := a.1 < b.1 ∨ (a.1 = b.1 ∧ a.2 ≤ b.2)

instance : DecidableRel (pairLe (K := K) (V := V)) := by
  unfold pairLe
  infer_instance

instance : IsTotal (K × V) pairLe := by
  constructor
  intro a b
  unfold pairLe
  rcases lt_trichotomy a.1 b.1 with h | h | h
  · exact Or.inl (Or.inl h)
  · rcases le_total a.2 b.2 with h' | h'
    · exact Or.inl (Or.inr ⟨h, h'⟩)
    · exact Or.inr (Or.inr ⟨h.symm, h'⟩)
  · exact Or.inr (Or.inl h)

instance : IsTrans (K × V) pairLe := by
  constructor
  intro a b c hab hbc
  unfold pairLe at *
  rcases hab with h | ⟨h1, h2⟩
  · rcases hbc with h' | ⟨h1', _⟩
    · exact Or.inl (lt_trans h h')
    · exact Or.inl (h1' ▸ h)
  · rcases hbc with h' | ⟨h1', h2'⟩
    · exact Or.inl (h1 ▸ h')
    · exact Or.inr ⟨h1.trans h1', le_trans h2 h2'⟩

/-- `kv_pairs.sort()` in `flush_kv` (stable sorts of a total preorder
agree). -/
def sortPairs (l : List (K × V)) : List (K × V) :=
  l.insertionSort pairLe

/-- `get_leaf_id_chain` (`src/fptree/leaf_manager/mod.rs`) as read by the
flush writer: walk the *committed* headers' `next` pointers from page 0. -/
def committedChain : Nat → Heap K V → Nat → List (LeafM K V)
  | 0, _, _ => []
  | fuel + 1, h, i =>
    match h.get? i with
    | none => []
    | some obj =>
      obj.committed ::
        (match obj.committed.next with
         | none => []
         | some j => committedChain fuel h j)

/-- The per-pair step of `flush_kv`'s write loop over the state
`(filter keys so far, sparse index, current offset)`: `filter.set(&key)`,
`index.insert(&key, offset)`, then advance the offset by
`get_data_size(key_size, value_size)` (unaligned). -/
def flushStep (st : List K × Amphis.SpIdx.SparseIndex K × Nat) (kv : K × V) :
    List K × Amphis.SpIdx.SparseIndex K × Nat :=
  (st.1 ++ [kv.1], Amphis.SpIdx.insert st.2.1 kv.1 st.2.2,
    st.2.2 + Amphis.get_data_size (sizeK kv.1) (sizeV kv.2))

/-- A registered table as the façade holds it: id, the keys inserted into
its bloom filter, its sparse index, and the table file's pairs.  At lookup
time it is read back as an `Amphis.Sst.TableEntry` whose `check` is exact
membership in the inserted keys — a bloom filter with no false negative;
a false positive would only add a table scan that misses and falls
through, leaving every lookup result unchanged. -/
structure RegTable (K V : Type) where
  id : Nat
  filterKeys : List K
  index : Amphis.SpIdx.SparseIndex K
  pairs : List (K × V)
  deriving Repr

/-- The view of a registered table used by `SstableManager::get`. -/
def RegTable.entry {K V : Type} [DecidableEq K] (t : RegTable K V) :
    Amphis.Sst.TableEntry K V :=
  ⟨t.id, fun k => decide (k ∈ t.filterKeys), t.index, t.pairs⟩

/-- `FlushWriter::flush_kv` (`src/flush_writer.rs`) at the key/value level:
collect each chain leaf's occupied pairs, sort them per leaf, and run the
write loop; the produced table file is the raw concatenation of the pair
encodings in exactly this pair order (the byte-level writer is
`Amphis.Flush.flushKvBytes`). -/
def flushEntry (id : Nat) (t : FpTree K V) : RegTable K V :=
  let leaves := committedChain t.heap.length t.heap 0
  let pairs := leaves.flatMap fun l => sortPairs (leafPairs l)
  let st := pairs.foldl (flushStep sizeK sizeV) ([], Amphis.SpIdx.new, 0)
  ⟨id, st.1, st.2.1, pairs⟩

/-- The KVS façade state (`src/kvs.rs` + `src/fptree_manager.rs`): the
current tree, the registered tables in ascending-id order, the flush
writer's next table id, and the configured `root_split_threshold`.  The
model is single-threaded: outside a `put`, `new_fptree_ptr` is `None` (a
synchronous flush installs the new tree and switches to it within the same
`put`), and the write-witness strong count is 1. -/
structure KvsState (K V : Type) where
  tree : FpTree K V
  tables : List (RegTable K V)
  nextTableId : Nat
  threshold : Nat
  deriving Repr

/-- `KVS::new` on a fresh directory: empty table set, flush writer primed
with table id 0, a fresh tree. -/
def kvsNew (threshold : Nat) : KvsState K V :=
  ⟨FpTree.new, [], 0, threshold⟩

/-- `FPTreeManager::need_flush`: no flush in progress (always true between
operations here) and `root_split_count ≥ root_split_threshold`. -/
def needFlush (s : KvsState K V) : Bool :=
  decide (s.threshold ≤ s.tree.rootSplitCount)

/-- `KVS::put`: route the put to the current tree; then, if `need_flush`,
run the synchronous flush of `src/kvs.rs` (`prepare_flush` — which re-checks
and succeeds here, the write-witness count being 1 — then
`flush`/`register`/`swith_fptree`): the frozen tree is written out as a new
even-id table and a fresh tree becomes current. -/
def kvsPut (fuel : Nat) (s : KvsState K V) (k : K) (v : V) :
    Option (KvsState K V) :=
  match treePut sizeK sizeV hash fuel s.tree k v with
  | none => none
  | some tree' =>
    if needFlush ⟨tree', s.tables, s.nextTableId, s.threshold⟩ then
      some ⟨FpTree.new,
        s.tables ++ [flushEntry sizeK sizeV s.nextTableId tree'],
        s.nextTableId + 2, s.threshold⟩
    else some ⟨tree', s.tables, s.nextTableId, s.threshold⟩

variable (emptyV : V)

/-- `KVS::delete` → `FPTreeManager::delete` → `FPTree::delete`, which is
`put(key, &Vec::new())` — a tombstone put; `KVS::delete` performs no flush
check. -/
def kvsDelete (fuel : Nat) (s : KvsState K V) (k : K) :
    Option (KvsState K V) :=
  match treePut sizeK sizeV hash fuel s.tree k emptyV with
  | none => none
  | some tree' => some ⟨tree', s.tables, s.nextTableId, s.threshold⟩

/-- `KVS::get`: `FPTreeManager::get` on the current tree (no flush is in
progress between operations), falling back to `SstableManager::get`; an
empty resulting value (tombstone) becomes `None`.  The outer `none` is a
panic inside the table scan. -/
def kvsGet (fuel : Nat) (s : KvsState K V) (k : K) : Option (Option V) :=
  match treeGet hash fuel s.tree.heap s.tree.root k with
  | some v => some (if v = emptyV then none else some v)
  | none =>
    match Amphis.Sst.sstableGet sizeK sizeV (s.tables.map RegTable.entry)
        k with
    | none => none
    | some (some v) => some (if v = emptyV then none else some v)
    | some none => some none

end Amphis.Tree

namespace Amphis.Flush

/-! ## The flush write loop at byte level — `src/flush_writer.rs`
(`FlushWriter::flush_kv`, lines 104–154)

Keys and values are the byte strings themselves here (`K = V = List Nat`,
ordered as Rust orders `Vec<u8>`).  The input is the chain's per-leaf pair
lists (one list per leaf id of `id_list`, each the leaf's occupied pairs);
`flush_kv` sorts each list (`kv_pairs.sort()`) and runs the write loop.  The
state records the table file bytes written so far, the keys passed to
`filter.set`, every `(key, offset)` argument pair passed to
`index.insert` (the index itself retains a stride-limited subset), the
sparse index, and the running offset. -/

/-- The mutable state of `flush_kv`'s write loop. -/
structure FlushState where
  file : List Nat
  filterKeys : List (List Nat)
  calls : List (List Nat × Nat)
  index : Amphis.SpIdx.SparseIndex (List Nat)
  offset : Nat

/-- The loop body for one `(key, value)`: `filter.set(&key)`;
`index.insert(&key, offset)`; `offset += get_data_size(key.len, value.len)`;
`writer.write_all(&format_data_with_crc(&key, &value))`. -/
def step (st : FlushState) (kv : List Nat × List Nat) : FlushState :=
  { file := st.file ++ Amphis.format_data_with_crc kv.1 kv.2
    filterKeys := st.filterKeys ++ [kv.1]
    calls := st.calls ++ [(kv.1, st.offset)]
    index := Amphis.SpIdx.insert st.index kv.1 st.offset
    offset := st.offset +
      Amphis.get_data_size kv.1.length kv.2.length }

/-- The state at entry of the loop: empty file, fresh filter and index,
`offset = 0`. -/
def init : FlushState :=
  ⟨[], [], [], Amphis.SpIdx.new, 0⟩

/-- One leaf's turn: `kv_pairs.sort()` then the write loop over the sorted
pairs. -/
def flushLeafBytes (st : FlushState)
    (pairs : List (List Nat × List Nat)) : FlushState :=
  (Amphis.Tree.sortPairs pairs).foldl step st

/-- `flush_kv`'s full write phase over the chain's per-leaf pair lists. -/
def flushKvBytes (leaves : List (List (List Nat × List Nat))) :
    FlushState :=
  leaves.foldl flushLeafBytes init

/-- Spec-side definition (for comparison with the loop): each pair tagged
with the byte offset at which the spec says its encoding begins — the
running sum of the preceding `get_data_size` values. -/
def specOffsets :
    List (List Nat × List Nat) → Nat →
      List ((List Nat × List Nat) × Nat)
  | [], _ => []
  | kv :: rest, off =>
    (kv, off) ::
      specOffsets rest (off + Amphis.get_data_size kv.1.length kv.2.length)

end Amphis.Flush

namespace Amphis.Tree

/-! ### Concrete instantiation for executed traces

Keys and values are byte strings in the source; the executed traces
instantiate the parametric model at `K = V = Nat`, where a key `k` stands
for a byte string and the numeric order on the chosen key numbers agrees
with the lexicographic order of the byte strings they stand for (e.g. `25`
stands for `[2, 5]`, which sorts between `[2]` and `[3]`), and a value `n`
stands for an `n`-byte string (so `0` is the empty tombstone value).  The
size functions below give each key/value the byte length of the string it
stands for, and the fingerprint function is constant (a legal hash; lookups
compare full keys after the fingerprint filter). -/

/-- Key byte lengths for the five-put trace: key `25` stands for the
two-byte string `[2, 5]`, every other key for a one-byte string. -/
def keyLen1 : Nat → Nat := fun k => if k = 25 then 2 else 1

/-- Key byte lengths for the tombstone trace: key `99` stands for a
61500-byte string (greater than every other key in its first byte), every
other key for a one-byte string. -/
def keyLen9 : Nat → Nat := fun k => if k = 99 then 61500 else 1

/-- Value byte lengths: value `n` stands for an `n`-byte string. -/
def valLen : Nat → Nat := id

/-- The fingerprint function of the traces: constantly `0`. -/
def hash0 : Nat → Nat := fun _ => 0

/-- The store state after the first 1 operation(s) of the C1 trace. -/
def c1s1 : KvsState Nat Nat :=
  { tree := { root := Amphis.Tree.FpNode.leaf 0,
              heap := [{ ram := { slots := slotsOf 32 [(0, 0, 10, 100)],
                                  tail := 8192,
                                  next := none },
                         committed := { slots := slotsOf 32 [(0, 0, 10, 100)],
                                        tail := 8192,
                                        next := none } }],
              rootSplitCount := 0 },
    tables := [],
    nextTableId := 0,
    threshold := 6 }

/-- The store state after the first 2 operation(s) of the C1 trace. -/
def c1s2 : KvsState Nat Nat :=
  { tree := { root := Amphis.Tree.FpNode.leaf 0,
              heap := [{ ram := { slots := slotsOf 32 [(0, 0, 10, 100), (1, 0, 20, 100)],
                                  tail := 12288,
                                  next := none },
                         committed := { slots := slotsOf 32 [(0, 0, 10, 100), (1, 0, 20, 100)],
                                        tail := 12288,
                                        next := none } }],
              rootSplitCount := 0 },
    tables := [],
    nextTableId := 0,
    threshold := 6 }

/-- The store state after the first 3 operation(s) of the C1 trace. -/
def c1s3 : KvsState Nat Nat :=
  { tree := { root := Amphis.Tree.FpNode.leaf 0,
              heap := [{ ram := { slots := slotsOf 32 [(0, 0, 10, 100), (1, 0, 20, 100), (2, 0, 30, 100)],
                                  tail := 16384,
                                  next := none },
                         committed := { slots := slotsOf 32 [(0, 0, 10, 100), (1, 0, 20, 100), (2, 0, 30, 100)],
                                        tail := 16384,
                                        next := none } }],
              rootSplitCount := 0 },
    tables := [],
    nextTableId := 0,
    threshold := 6 }

/-- The store state after the first 4 operation(s) of the C1 trace. -/
def c1s4 : KvsState Nat Nat :=
  { tree := { root := Amphis.Tree.FpNode.inner [20] [Amphis.Tree.FpNode.leaf 0, Amphis.Tree.FpNode.leaf 1],
              heap := [{ ram := { slots := slotsOf 32 [(0, 0, 10, 100)],
                                  tail := 16384,
                                  next := some 1 },
                         committed := { slots := slotsOf 32 [(0, 0, 10, 100), (1, 0, 20, 100), (2, 0, 30, 100)],
                                        tail := 16384,
                                        next := none } },
                       { ram := { slots := slotsOf 32 [(0, 0, 20, 100), (1, 0, 25, 250000)],
                                  tail := 266240,
                                  next := some 2 },
                         committed := { slots := slotsOf 32 [(0, 0, 20, 100), (1, 0, 25, 250000)],
                                        tail := 266240,
                                        next := some 2 } },
                       { ram := { slots := slotsOf 32 [(0, 0, 30, 100)],
                                  tail := 8192,
                                  next := none },
                         committed := { slots := slotsOf 32 [(0, 0, 30, 100)],
                                        tail := 8192,
                                        next := none } }],
              rootSplitCount := 1 },
    tables := [],
    nextTableId := 0,
    threshold := 6 }

/-- The store state after the first 5 operation(s) of the C1 trace. -/
def c1s5 : KvsState Nat Nat :=
  { tree := { root := Amphis.Tree.FpNode.inner
                        [20, 25]
                        [Amphis.Tree.FpNode.leaf 0, Amphis.Tree.FpNode.leaf 1, Amphis.Tree.FpNode.leaf 3],
              heap := [{ ram := { slots := slotsOf 32 [(0, 0, 10, 100)],
                                  tail := 16384,
                                  next := some 1 },
                         committed := { slots := slotsOf 32 [(0, 0, 10, 100), (1, 0, 20, 100), (2, 0, 30, 100)],
                                        tail := 16384,
                                        next := none } },
                       { ram := { slots := slotsOf 32 [(0, 0, 20, 100)],
                                  tail := 266240,
                                  next := some 3 },
                         committed := { slots := slotsOf 32 [(0, 0, 20, 100), (1, 0, 25, 250000)],
                                        tail := 266240,
                                        next := some 2 } },
                       { ram := { slots := slotsOf 32 [(0, 0, 30, 100)],
                                  tail := 8192,
                                  next := none },
                         committed := { slots := slotsOf 32 [(0, 0, 30, 100)],
                                        tail := 8192,
                                        next := none } },
                       { ram := { slots := slotsOf 32 [(0, 0, 25, 250000), (1, 0, 40, 100)],
                                  tail := 262144,
                                  next := some 2 },
                         committed := { slots := slotsOf 32 [(0, 0, 25, 250000), (1, 0, 40, 100)],
                                        tail := 262144,
                                        next := some 2 } }],
              rootSplitCount := 1 },
    tables := [],
    nextTableId := 0,
    threshold := 6 }

/-- The tree after the first 1 insert(s) of the C2 trace. -/
def c2t1 : FpTree Nat Nat :=
  { root := Amphis.Tree.FpNode.leaf 0,
    heap := [{ ram := { slots := slotsOf 32 [(0, 0, 10, 100)],
                        tail := 8192,
                        next := none },
               committed := { slots := slotsOf 32 [(0, 0, 10, 100)],
                              tail := 8192,
                              next := none } }],
    rootSplitCount := 0 }

/-- The tree after the first 2 insert(s) of the C2 trace. -/
def c2t2 : FpTree Nat Nat :=
  { root := Amphis.Tree.FpNode.leaf 0,
    heap := [{ ram := { slots := slotsOf 32 [(0, 0, 10, 100), (1, 0, 20, 100)],
                        tail := 12288,
                        next := none },
               committed := { slots := slotsOf 32 [(0, 0, 10, 100), (1, 0, 20, 100)],
                              tail := 12288,
                              next := none } }],
    rootSplitCount := 0 }

/-- The tree after the first 3 insert(s) of the C2 trace. -/
def c2t3 : FpTree Nat Nat :=
  { root := Amphis.Tree.FpNode.leaf 0,
    heap := [{ ram := { slots := slotsOf 32 [(0, 0, 10, 100), (1, 0, 20, 100), (2, 0, 30, 100)],
                        tail := 16384,
                        next := none },
               committed := { slots := slotsOf 32 [(0, 0, 10, 100), (1, 0, 20, 100), (2, 0, 30, 100)],
                              tail := 16384,
                              next := none } }],
    rootSplitCount := 0 }

/-- The tree after the first 4 insert(s) of the C2 trace. -/
def c2t4 : FpTree Nat Nat :=
  { root := Amphis.Tree.FpNode.inner [20] [Amphis.Tree.FpNode.leaf 0, Amphis.Tree.FpNode.leaf 1],
    heap := [{ ram := { slots := slotsOf 32 [(0, 0, 10, 100)],
                        tail := 16384,
                        next := some 1 },
               committed := { slots := slotsOf 32 [(0, 0, 10, 100), (1, 0, 20, 100), (2, 0, 30, 100)],
                              tail := 16384,
                              next := none } },
             { ram := { slots := slotsOf 32 [(0, 0, 20, 100), (1, 0, 25, 250000)],
                        tail := 266240,
                        next := some 2 },
               committed := { slots := slotsOf 32 [(0, 0, 20, 100), (1, 0, 25, 250000)],
                              tail := 266240,
                              next := some 2 } },
             { ram := { slots := slotsOf 32 [(0, 0, 30, 100)],
                        tail := 8192,
                        next := none },
               committed := { slots := slotsOf 32 [(0, 0, 30, 100)],
                              tail := 8192,
                              next := none } }],
    rootSplitCount := 1 }

/-- The tree after the first 5 insert(s) of the C2 trace. -/
def c2t5 : FpTree Nat Nat :=
  { root := Amphis.Tree.FpNode.inner
              [20, 25]
              [Amphis.Tree.FpNode.leaf 0, Amphis.Tree.FpNode.leaf 1, Amphis.Tree.FpNode.leaf 3],
    heap := [{ ram := { slots := slotsOf 32 [(0, 0, 10, 100)],
                        tail := 16384,
                        next := some 1 },
               committed := { slots := slotsOf 32 [(0, 0, 10, 100), (1, 0, 20, 100), (2, 0, 30, 100)],
                              tail := 16384,
                              next := none } },
             { ram := { slots := slotsOf 32 [(0, 0, 20, 100)],
                        tail := 266240,
                        next := some 3 },
               committed := { slots := slotsOf 32 [(0, 0, 20, 100), (1, 0, 25, 250000)],
                              tail := 266240,
                              next := some 2 } },
             { ram := { slots := slotsOf 32 [(0, 0, 30, 100)],
                        tail := 8192,
                        next := none },
               committed := { slots := slotsOf 32 [(0, 0, 30, 100)],
                              tail := 8192,
                              next := none } },
             { ram := { slots := slotsOf 32 [(0, 0, 25, 250000), (1, 0, 40, 100)],
                        tail := 262144,
                        next := some 2 },
               committed := { slots := slotsOf 32 [(0, 0, 25, 250000), (1, 0, 40, 100)],
                              tail := 262144,
                              next := some 2 } }],
    rootSplitCount := 1 }

/-- The store state after the first 1 operation(s) of the C9 trace. -/
def c9s1 : KvsState Nat Nat :=
  { tree := { root := Amphis.Tree.FpNode.leaf 0,
              heap := [{ ram := { slots := slotsOf 32 [(0, 0, 99, 100)],
                                  tail := 69632,
                                  next := none },
                         committed := { slots := slotsOf 32 [(0, 0, 99, 100)],
                                        tail := 69632,
                                        next := none } }],
              rootSplitCount := 0 },
    tables := [],
    nextTableId := 0,
    threshold := 1 }

/-- The store state after the first 2 operation(s) of the C9 trace. -/
def c9s2 : KvsState Nat Nat :=
  { tree := { root := Amphis.Tree.FpNode.leaf 0,
              heap := [{ ram := { slots := slotsOf 32 [(0, 0, 99, 100), (1, 0, 10, 100)],
                                  tail := 73728,
                                  next := none },
                         committed := { slots := slotsOf 32 [(0, 0, 99, 100), (1, 0, 10, 100)],
                                        tail := 73728,
                                        next := none } }],
              rootSplitCount := 0 },
    tables := [],
    nextTableId := 0,
    threshold := 1 }

/-- The store state after the first 3 operation(s) of the C9 trace. -/
def c9s3 : KvsState Nat Nat :=
  { tree := { root := Amphis.Tree.FpNode.leaf 0,
              heap := [{ ram := { slots := slotsOf 32 [(0, 0, 99, 100), (1, 0, 10, 100), (2, 0, 20, 100)],
                                  tail := 77824,
                                  next := none },
                         committed := { slots := slotsOf 32 [(0, 0, 99, 100), (1, 0, 10, 100), (2, 0, 20, 100)],
                                        tail := 77824,
                                        next := none } }],
              rootSplitCount := 0 },
    tables := [],
    nextTableId := 0,
    threshold := 1 }

/-- The store state after the first 4 operation(s) of the C9 trace. -/
def c9s4 : KvsState Nat Nat :=
  { tree := { root := Amphis.Tree.FpNode.leaf 0,
              heap := [{ ram := { slots := slotsOf 32 [],
                                  tail := 4096,
                                  next := none },
                         committed := { slots := slotsOf 32 [],
                                        tail := 4096,
                                        next := none } }],
              rootSplitCount := 0 },
    tables := [{ id := 0,
                 filterKeys := [10, 20, 99],
                 index := { prev_offset := 0, index := [(10, 0)] },
                 pairs := [(10, 100), (20, 100), (99, 100)] }],
    nextTableId := 2,
    threshold := 1 }

/-- The store state after the first 5 operation(s) of the C9 trace. -/
def c9s5 : KvsState Nat Nat :=
  { tree := { root := Amphis.Tree.FpNode.leaf 0,
              heap := [{ ram := { slots := slotsOf 32 [(0, 0, 10, 100)],
                                  tail := 8192,
                                  next := none },
                         committed := { slots := slotsOf 32 [(0, 0, 10, 100)],
                                        tail := 8192,
                                        next := none } }],
              rootSplitCount := 0 },
    tables := [{ id := 0,
                 filterKeys := [10, 20, 99],
                 index := { prev_offset := 0, index := [(10, 0)] },
                 pairs := [(10, 100), (20, 100), (99, 100)] }],
    nextTableId := 2,
    threshold := 1 }

/-- The store state after the first 6 operation(s) of the C9 trace. -/
def c9s6 : KvsState Nat Nat :=
  { tree := { root := Amphis.Tree.FpNode.leaf 0,
              heap := [{ ram := { slots := slotsOf 32 [(0, 0, 10, 100), (1, 0, 20, 100)],
                                  tail := 12288,
                                  next := none },
                         committed := { slots := slotsOf 32 [(0, 0, 10, 100), (1, 0, 20, 100)],
                                        tail := 12288,
                                        next := none } }],
              rootSplitCount := 0 },
    tables := [{ id := 0,
                 filterKeys := [10, 20, 99],
                 index := { prev_offset := 0, index := [(10, 0)] },
                 pairs := [(10, 100), (20, 100), (99, 100)] }],
    nextTableId := 2,
    threshold := 1 }

/-- The store state after the first 7 operation(s) of the C9 trace. -/
def c9s7 : KvsState Nat Nat :=
  { tree := { root := Amphis.Tree.FpNode.leaf 0,
              heap := [{ ram := { slots := slotsOf 32 [(0, 0, 10, 100), (1, 0, 20, 100), (2, 0, 30, 190000)],
                                  tail := 204800,
                                  next := none },
                         committed := { slots := slotsOf 32 [(0, 0, 10, 100), (1, 0, 20, 100), (2, 0, 30, 190000)],
                                        tail := 204800,
                                        next := none } }],
              rootSplitCount := 0 },
    tables := [{ id := 0,
                 filterKeys := [10, 20, 99],
                 index := { prev_offset := 0, index := [(10, 0)] },
                 pairs := [(10, 100), (20, 100), (99, 100)] }],
    nextTableId := 2,
    threshold := 1 }

/-- The store state after the first 8 operation(s) of the C9 trace. -/
def c9s8 : KvsState Nat Nat :=
  { tree := { root := Amphis.Tree.FpNode.leaf 0,
              heap := [{ ram := { slots := slotsOf 32 [],
                                  tail := 4096,
                                  next := none },
                         committed := { slots := slotsOf 32 [],
                                        tail := 4096,
                                        next := none } }],
              rootSplitCount := 0 },
    tables := [{ id := 0,
                 filterKeys := [10, 20, 99],
                 index := { prev_offset := 0, index := [(10, 0)] },
                 pairs := [(10, 100), (20, 100), (99, 100)] },
               { id := 2,
                 filterKeys := [10, 20, 30],
                 index := { prev_offset := 0, index := [(10, 0)] },
                 pairs := [(10, 100), (20, 100), (30, 190000)] }],
    nextTableId := 4,
    threshold := 1 }

/-- The one-leaf heap holding pairs `10 ↦ 100`, `20 ↦ 100`, `30 ↦ 190000`
with the data arena filled to tail `204800` (the committed copy in sync) —
the state of a head leaf after three puts. -/
def c3heap : Heap Nat Nat :=
  [{ ram := { slots := slotsOf 32 [(0, 0, 10, 100), (1, 0, 20, 100),
        (2, 0, 30, 190000)], tail := 204800, next := none },
     committed := { slots := slotsOf 32 [(0, 0, 10, 100), (1, 0, 20, 100),
        (2, 0, 30, 190000)], tail := 204800, next := none } }]

end Amphis.Tree


namespace Amphis.Sst

/-- A registered table with id 0 holding `5 ↦ 50` (for the C5 witness). -/
def c5t0 : TableEntry Nat Nat :=
  ⟨0, fun k => decide (k ∈ [5]), ⟨100, [(5, 0)]⟩, [(5, 50)]⟩

/-- A registered table with id 2 holding `5 ↦ 70` (for the C5 witness). -/
def c5t2 : TableEntry Nat Nat :=
  ⟨2, fun k => decide (k ∈ [5]), ⟨0, [(5, 0)]⟩, [(5, 70)]⟩

end Amphis.Sst

namespace Amphis.Flush

/-- Two chain leaves for the C6 witness: the first holds keys `[1]` and
`[0]` (unsorted in slot order), the second key `[2]`. -/
def c6leaves : List (List (List Nat × List Nat)) :=
  [[([1], [10]), ([0], [20])], [([2], [30])]]

end Amphis.Flush

namespace Amphis.Tree

/-- The heap state after the first split inside the C3 witness run. -/
def c3h3 : Heap Nat Nat :=
  [{ ram := { slots := slotsOf 32 [(0, 0, 10, 100)],
               tail := 204800,
               next := some 1 },
      committed := { slots := slotsOf 32 [(0, 0, 10, 100), (1, 0, 20, 100), (2, 0, 30, 190000)],
                     tail := 204800,
                     next := none } },
    { ram := { slots := slotsOf 32 [(0, 0, 20, 100), (1, 0, 30, 190000)],
               tail := 200704,
               next := none },
      committed := { slots := slotsOf 32 [(0, 0, 20, 100), (1, 0, 30, 190000)],
                     tail := 200704,
                     next := none } }]

/-- The single full-leaf object of `c3heap`. -/
def c3obj : LeafObj Nat Nat :=
  { ram := { slots := slotsOf 32 [(0, 0, 10, 100), (1, 0, 20, 100),
        (2, 0, 30, 190000)], tail := 204800, next := none },
    committed := { slots := slotsOf 32 [(0, 0, 10, 100), (1, 0, 20, 100),
        (2, 0, 30, 190000)], tail := 204800, next := none } }

end Amphis.Tree

/-! # Theorems -/

namespace Amphis

theorem toLeBytes_length (w n : Nat) : (toLeBytes w n).length = w := by
  induction w generalizing n with
  | zero => rfl
  | succ w ih => simp [toLeBytes, ih]

/-- The encoding of a pair is exactly `get_data_size` bytes long. -/
theorem format_data_with_crc_length (key value : List Nat) :
    (format_data_with_crc key value).length =
      get_data_size key.length value.length := by
  simp [format_data_with_crc, get_data_size, toLeBytes_length,
    LEN_REDUNDANCY, LEN_SIZE, LEN_CRC]
  omega

end Amphis

namespace Amphis.SpIdx

variable {K : Type} [LinearOrder K]

theorem btGet_eq_none_of_not_mem {l : List (K × Nat)} {key : K}
    (h : ∀ e ∈ l, e.1 ≠ key) : btGet key l = none := by
  induction l with
  | nil => rfl
  | cons e t ih =>
    have hne : key ≠ e.1 := fun h' => h e (by simp) h'.symm
    simp only [btGet, hne, if_false]
    exact ih fun e' he' => h e' (by simp [he'])

theorem btGet_eq_some_of_mem {l : List (K × Nat)} {key : K} {o : Nat}
    (hs : l.Pairwise (fun a b => a.1 < b.1)) (hm : (key, o) ∈ l) :
    btGet key l = some o := by
  induction l with
  | nil => cases hm
  | cons e t ih =>
    rcases List.mem_cons.mp hm with h | h
    · cases h; simp [btGet]
    · have hlt : e.1 < key := (List.pairwise_cons.mp hs).1 (key, o) h
      have hne : key ≠ e.1 := fun h' => absurd (h' ▸ hlt) (lt_irrefl _)
      simp only [btGet, hne, if_false]
      exact ih (List.pairwise_cons.mp hs).2 h

theorem filter_le_getLast?_of_mem {l : List (K × Nat)} {key : K} {o : Nat}
    (hs : l.Pairwise (fun a b => a.1 < b.1)) (hm : (key, o) ∈ l) :
    (l.filter (fun e => e.1 ≤ key)).getLast? = some (key, o) := by
  induction l with
  | nil => cases hm
  | cons e t ih =>
    rcases List.pairwise_cons.mp hs with ⟨he, ht⟩
    rcases List.mem_cons.mp hm with h | h
    · cases h
      have : t.filter (fun e => e.1 ≤ key) = [] := by
        apply List.filter_eq_nil_iff.mpr
        intro a ha
        simpa using not_le.mpr (he a ha)
      simp [List.filter_cons, this]
    · have hlt : e.1 < key := he (key, o) h
      rw [List.filter_cons_of_pos (by simpa using le_of_lt hlt)]
      exact Option.mem_def.mp
        (List.mem_getLast?_cons (Option.mem_def.mpr (ih ht h)))

/-- `SparseIndex::get` equals the lookup of the greatest indexed key `≤ key`
(`none` = the `unwrap()` panic when no indexed key is `≤ key`), given the
`BTreeMap` sortedness invariant. -/
theorem get_eq_greatest_le {s : SparseIndex K} {key : K}
    (hs : s.index.Pairwise (fun a b => a.1 < b.1)) :
    get s key = ((s.index.filter (fun e => e.1 ≤ key)).getLast?).map (·.2) := by
  unfold get
  by_cases hmem : ∃ o, (key, o) ∈ s.index
  · obtain ⟨o, ho⟩ := hmem
    rw [btGet_eq_some_of_mem hs ho, filter_le_getLast?_of_mem hs ho]
    rfl
  · push_neg at hmem
    have hno : ∀ e ∈ s.index, e.1 ≠ key := by
      intro e he h'
      exact hmem e.2 (by rw [← h']; exact he)
    rw [btGet_eq_none_of_not_mem hno]
    have : s.index.filter (fun e => e.1 ≤ key) =
        s.index.filter (fun e => e.1 < key) := by
      apply List.filter_congr
      intro e he
      simp only [decide_eq_decide]
      exact ⟨fun h => lt_of_le_of_ne h (hno e he), le_of_lt⟩
    rw [this]

/-- The retention condition of `SparseIndex::insert`, with the `usize`
subtraction rewritten to `Nat` subtraction for in-range, monotone offsets. -/
theorem insert_retained_iff {s : SparseIndex K} {key : K} {offset : Nat}
    (hle : s.prev_offset = USIZE_MAX ∨ s.prev_offset ≤ offset)
    (hoff : offset < 2 ^ 64) :
    ((s.prev_offset = USIZE_MAX ∨ LEAST_OFFSET ≤ offset - s.prev_offset) →
      insert s key offset = ⟨offset, btInsert key offset s.index⟩) ∧
    (¬ (s.prev_offset = USIZE_MAX ∨ LEAST_OFFSET ≤ offset - s.prev_offset) →
      insert s key offset = s) := by
  have hsub : s.prev_offset ≠ USIZE_MAX →
      usizeSub offset s.prev_offset = offset - s.prev_offset := by
    intro hne
    rcases hle with h | h
    · exact absurd h hne
    · have hp : s.prev_offset < 2 ^ 64 := lt_of_le_of_lt h hoff
      unfold usizeSub
      rw [Nat.mod_eq_of_lt hp]
      have h1 : offset + 2 ^ 64 - s.prev_offset =
          2 ^ 64 + (offset - s.prev_offset) := by omega
      rw [h1, Nat.add_mod_left, Nat.mod_eq_of_lt (by omega)]
  constructor
  · intro hyes
    unfold insert
    by_cases hmax : s.prev_offset = USIZE_MAX
    · rw [if_pos (Or.inl hmax)]
    · rw [if_pos]
      rcases hyes with h | h
      · exact absurd h hmax
      · exact Or.inr (by rw [hsub hmax]; exact h)
  · intro hno
    unfold insert
    by_cases hmax : s.prev_offset = USIZE_MAX
    · exact absurd (Or.inl hmax) hno
    · rw [if_neg]
      push_neg at hno
      rw [hsub hmax]
      push_neg
      exact ⟨hno.1, hno.2⟩

end Amphis.SpIdx

namespace Amphis.InnerNode

variable {K C : Type} [LinearOrder K]

theorem sorted_get?_lt {keys : List K} (hs : keys.Pairwise (· < ·))
    {i j : Nat} {x y : K} (hij : i < j) (hx : keys.get? i = some x)
    (hy : keys.get? j = some y) : x < y := by
  have hjl : j < keys.length := by
    by_contra h
    rw [List.get?_eq_none.mpr (le_of_not_lt h)] at hy
    cases hy
  have hil : i < keys.length := lt_trans hij hjl
  rw [List.get?_eq_get hil] at hx
  rw [List.get?_eq_get hjl] at hy
  cases hx; cases hy
  exact List.pairwise_iff_get.mp hs ⟨i, hil⟩ ⟨j, hjl⟩ hij

theorem binarySearchAux_spec {keys : List K} {key : K}
    (hs : keys.Pairwise (· < ·)) :
    ∀ fuel left right, right - left < fuel → left ≤ right →
      right ≤ keys.length →
      (∀ i, i < left → ∀ x, keys.get? i = some x → x < key) →
      (∀ i, right ≤ i → ∀ x, keys.get? i = some x → key < x) →
      (match binarySearchAux keys key fuel left right with
       | Sum.inl i => keys.get? i = some key
       | Sum.inr j =>
           j ≤ right ∧
           (∀ i, i < j → ∀ x, keys.get? i = some x → x < key) ∧
           (∀ i, j ≤ i → ∀ x, keys.get? i = some x → key < x)) := by
  intro fuel
  induction fuel with
  | zero => intro left right hfuel; omega
  | succ fuel ih =>
    intro left right hfuel hlr0 hr hlo hhi
    rw [binarySearchAux]
    by_cases hlr : left < right
    · rw [if_pos hlr]
      have hmid : left + (right - left) / 2 < keys.length := by omega
      have hkm : keys.get? (left + (right - left) / 2) =
          some (keys.get ⟨left + (right - left) / 2, hmid⟩) :=
        List.get?_eq_get hmid
      simp only [hkm]
      by_cases h1 : keys.get ⟨left + (right - left) / 2, hmid⟩ < key
      · rw [if_pos h1]
        refine ih _ _ (by omega) (by omega) hr ?_ hhi
        intro i hi x hx
        rcases lt_or_ge i (left + (right - left) / 2) with h' | h'
        · rcases lt_or_ge i left with h'' | h''
          · exact hlo i h'' x hx
          · exact lt_trans (sorted_get?_lt hs h' hx hkm) h1
        · have hieq : i = left + (right - left) / 2 := by omega
          subst hieq
          rw [hx] at hkm
          cases hkm
          exact h1
      · rw [if_neg h1]
        by_cases h2 : key < keys.get ⟨left + (right - left) / 2, hmid⟩
        · rw [if_pos h2]
          have hrec := ih left (left + (right - left) / 2) (by omega)
            (by omega) (by omega) hlo ?_
          · rcases hres : binarySearchAux keys key fuel left
                (left + (right - left) / 2) with i | j
            · rw [hres] at hrec
              exact hrec
            · rw [hres] at hrec
              exact ⟨by omega, hrec.2.1, hrec.2.2⟩
          · intro i hi x hx
            rcases eq_or_lt_of_le hi with h' | h'
            · rw [← h'] at hx
              rw [hx] at hkm
              cases hkm
              exact h2
            · exact lt_trans h2 (sorted_get?_lt hs h' hkm hx)
        · rw [if_neg h2]
          have heq : keys.get ⟨left + (right - left) / 2, hmid⟩ = key :=
            le_antisymm (le_of_not_lt h2) (le_of_not_lt h1)
          rw [heq] at hkm
          exact hkm
    · rw [if_neg hlr]
      exact ⟨by omega, hlo, fun i hi => hhi i (by omega)⟩

theorem binarySearch_spec {keys : List K} {key : K}
    (hs : keys.Pairwise (· < ·)) :
    (match binarySearch keys key with
     | Sum.inl i => keys.get? i = some key
     | Sum.inr j =>
         j ≤ keys.length ∧
         (∀ i, i < j → ∀ x, keys.get? i = some x → x < key) ∧
         (∀ i, j ≤ i → ∀ x, keys.get? i = some x → key < x)) := by
  refine binarySearchAux_spec hs _ 0 keys.length (by omega) (by omega)
    le_rfl ?_ ?_
  · intro i hi; omega
  · intro i hi x hx
    rw [List.get?_eq_none.mpr hi] at hx
    cases hx

/-- On sorted keys, `binary_search` lands in the `Ok` branch iff the key is
present. -/
theorem binarySearch_isInl_iff {keys : List K} {key : K}
    (hs : keys.Pairwise (· < ·)) :
    (∃ i, binarySearch keys key = Sum.inl i) ↔ key ∈ keys := by
  have h := @binarySearch_spec K _ keys key hs
  constructor
  · rintro ⟨i, hi⟩
    rw [hi] at h
    exact List.get?_mem h
  · intro hmem
    rcases hbs : binarySearch keys key with i | j
    · exact ⟨i, rfl⟩
    · rw [hbs] at h
      obtain ⟨m, hm⟩ := List.get?_of_mem hmem
      rcases lt_or_ge m j with h' | h'
      · exact absurd (h.2.1 m h' key hm) (lt_irrefl key)
      · exact absurd (h.2.2 m h' key hm) (lt_irrefl key)

theorem length_filter_eq_of_split {α : Type} (p : α → Bool) :
    ∀ (l : List α) (j : Nat), j ≤ l.length →
      (∀ i, i < j → ∀ x, l.get? i = some x → p x) →
      (∀ i, j ≤ i → ∀ x, l.get? i = some x → ¬ p x) →
      (l.filter p).length = j := by
  intro l
  induction l with
  | nil =>
    intro j hj _ _
    have hj0 : j = 0 := by simpa using hj
    subst hj0
    rfl
  | cons a t ih =>
    intro j hj hlo hhi
    match j with
    | 0 =>
      have hall : t.filter p = [] := by
        apply List.filter_eq_nil_iff.mpr
        intro x hx
        obtain ⟨m, hm⟩ := List.get?_of_mem hx
        exact hhi (m + 1) (by omega) x (by simpa using hm)
      rw [List.filter_cons_of_neg (by simpa using hhi 0 (by omega) a rfl),
        hall]
      rfl
    | j + 1 =>
      rw [List.filter_cons_of_pos (by simpa using hlo 0 (by omega) a rfl)]
      have hlen := ih j (by simpa using hj)
        (fun i hi x hx => hlo (i + 1) (by omega) x (by simpa using hx))
        (fun i hi x hx => hhi (i + 1) (by omega) x (by simpa using hx))
      simp [hlen]

/-- On sorted keys, an `Err(j)` from `binary_search` means the key is absent
and `j` is the insertion point: the number of keys smaller than `key`. -/
theorem binarySearch_inr_spec {keys : List K} {key : K} {j : Nat}
    (hs : keys.Pairwise (· < ·)) (hbs : binarySearch keys key = Sum.inr j) :
    key ∉ keys ∧ j = (keys.filter (fun k => decide (k < key))).length ∧
      j ≤ keys.length := by
  have h := @binarySearch_spec K _ keys key hs
  rw [hbs] at h
  have hnot : key ∉ keys := by
    intro hmem
    obtain ⟨i, hi⟩ := (binarySearch_isInl_iff hs).mpr hmem
    rw [hbs] at hi
    cases hi
  refine ⟨hnot, ?_, h.1⟩
  exact (length_filter_eq_of_split _ keys j h.1
    (fun i hi x hx => by simpa using h.2.1 i hi x hx)
    (fun i hi x hx => by
      simpa using not_lt.mpr (le_of_lt (h.2.2 i hi x hx)))).symm

end Amphis.InnerNode

namespace Amphis.InnerNode

variable {K C : Type} [LinearOrder K]

theorem inner_split_anatomy (n : Inner K C) (h : FANOUT < n.keys.length) :
    ∃ sk, n.keys.get? ((FANOUT + 1) / 2) = some sk ∧
      n.split = some
        (Inner.mk (n.keys.take ((FANOUT + 1) / 2))
          (n.children.take ((FANOUT + 1) / 2 + 1))
          (some (Inner.mk (n.keys.drop ((FANOUT + 1) / 2 + 1))
            (n.children.drop ((FANOUT + 1) / 2 + 1)) n.next false))
          n.isRoot,
        sk) := by
  obtain ⟨ks, cs, nx, r⟩ := n
  have hlen : FANOUT < ks.length := h
  have h2 : (FANOUT + 1) / 2 < ks.length := by
    unfold FANOUT at *
    omega
  refine ⟨ks.get ⟨(FANOUT + 1) / 2, h2⟩, List.get?_eq_get h2, ?_⟩
  simp only [Inner.split, Inner.keys, Inner.children, Inner.next,
    Inner.isRoot]
  rw [List.head?_drop, List.getElem?_eq_getElem h2]
  simp only [Option.some.injEq, Prod.mk.injEq]
  refine ⟨?_, rfl⟩
  congr 1
  · congr 1
    rw [List.drop_drop]

/-- C7: when an insert overflows an inner node (`keys.len > FANOUT`,
i.e. `need_split`), `Inner::split` divides it at `(FANOUT + 1) / 2`. -/
theorem claim_C7_inner_split_at_midpoint (n : Inner K C)
    (h : n.need_split) :
    ∃ sk, n.keys.get? ((FANOUT + 1) / 2) = some sk ∧
      n.split = some
        (Inner.mk (n.keys.take ((FANOUT + 1) / 2))
          (n.children.take ((FANOUT + 1) / 2 + 1))
          (some (Inner.mk (n.keys.drop ((FANOUT + 1) / 2 + 1))
            (n.children.drop ((FANOUT + 1) / 2 + 1)) n.next false))
          n.isRoot,
        sk) :=
  inner_split_anatomy n h

/-- Witness for C7 at a concrete overflowing inner node. -/
theorem claim_C7_witness :
    Inner.need_split
        (Inner.mk [1, 2, 3, 4] [10, 20, 30, 40, 50] none true :
          Inner Nat Nat) ∧
    ∃ sk,
      (Inner.mk [1, 2, 3, 4] [10, 20, 30, 40, 50] none true :
          Inner Nat Nat).keys.get? ((FANOUT + 1) / 2) = some sk ∧
      (Inner.mk [1, 2, 3, 4] [10, 20, 30, 40, 50] none true :
          Inner Nat Nat).split = some
        (Inner.mk
          ((Inner.mk [1, 2, 3, 4] [10, 20, 30, 40, 50] none true :
            Inner Nat Nat).keys.take ((FANOUT + 1) / 2))
          ((Inner.mk [1, 2, 3, 4] [10, 20, 30, 40, 50] none true :
            Inner Nat Nat).children.take ((FANOUT + 1) / 2 + 1))
          (some (Inner.mk
            ((Inner.mk [1, 2, 3, 4] [10, 20, 30, 40, 50] none true :
              Inner Nat Nat).keys.drop ((FANOUT + 1) / 2 + 1))
            ((Inner.mk [1, 2, 3, 4] [10, 20, 30, 40, 50] none true :
              Inner Nat Nat).children.drop ((FANOUT + 1) / 2 + 1))
            (Inner.mk [1, 2, 3, 4] [10, 20, 30, 40, 50] none true :
              Inner Nat Nat).next false))
          (Inner.mk [1, 2, 3, 4] [10, 20, 30, 40, 50] none true :
            Inner Nat Nat).isRoot,
        sk) :=
  ⟨by decide,
    claim_C7_inner_split_at_midpoint
      (Inner.mk [1, 2, 3, 4] [10, 20, 30, 40, 50] none true) (by decide)⟩

theorem insertAt_some_of_not_mem (n : Inner K C) (ik : K) (nc : C)
    (hs : n.keys.Pairwise (· < ·)) (hmem : ik ∉ n.keys) :
    ∃ r, Inner.insertAt n ik nc = some r := by
  rcases hbs : binarySearch n.keys ik with i | j
  · exact absurd ((binarySearch_isInl_iff hs).mp ⟨i, hbs⟩) hmem
  · have hj : j ≤ n.keys.length := (binarySearch_inr_spec hs hbs).2.2
    unfold Inner.insertAt
    rw [hbs]
    obtain ⟨ks, cs, nx, r⟩ := n
    simp only [Inner.keys, Inner.children]
    by_cases hns : Inner.need_split
        (Inner.mk (ks.insertIdx j ik)
          (if cs.length ≤ j + 1 then cs ++ [nc] else cs.insertIdx (j + 1) nc)
          nx r : Inner K C)
    · obtain ⟨sk, _, hsp⟩ := inner_split_anatomy _ hns
      rw [if_pos hns, hsp]
      exact ⟨_, rfl⟩
    · rw [if_neg hns]
      exact ⟨_, rfl⟩

/-- C10: on a sorted separator list, `Inner::insert` with an
`inserted_key` already present panics (`none`); with a fresh
`inserted_key`, `Inner::insertAt` (the body past the `get_child` guard)
always succeeds. -/
theorem claim_C10_duplicate_separator_panics (n : Inner K C)
    (key ik : K) (nc : C) (hs : n.keys.Pairwise (· < ·)) :
    (ik ∈ n.keys →
      Inner.insert n key ik nc = none ∧ Inner.insertAt n ik nc = none) ∧
    (ik ∉ n.keys → ∃ r, Inner.insertAt n ik nc = some r) := by
  constructor
  · intro hmem
    obtain ⟨i, hi⟩ := (binarySearch_isInl_iff hs).mpr hmem
    have hAt : Inner.insertAt n ik nc = none := by
      unfold Inner.insertAt
      rw [hi]
    refine ⟨?_, hAt⟩
    unfold Inner.insert
    by_cases h1 : childIdx n.keys key = n.children.length
    · rw [if_pos h1]
      by_cases h2 : n.next.isNone
      · rw [if_pos h2]
      · rw [if_neg h2]
        exact hAt
    · rw [if_neg h1]
      by_cases h2 : n.children.length < childIdx n.keys key
      · rw [if_pos h2]
      · rw [if_neg h2]
        exact hAt
  · exact insertAt_some_of_not_mem n ik nc hs

/-- Witness for C10 at a concrete inner node and duplicate key. -/
theorem claim_C10_witness :
    ([5] : List Nat).Pairwise (· < ·) ∧
    ((5 : Nat) ∈ ([5] : List Nat) →
      Inner.insert (Inner.mk [5] [10, 20] none true : Inner Nat Nat)
          5 5 30 = none ∧
        Inner.insertAt (Inner.mk [5] [10, 20] none true : Inner Nat Nat)
          5 30 = none) ∧
    ((5 : Nat) ∉ ([5] : List Nat) →
      ∃ r, Inner.insertAt
        (Inner.mk [5] [10, 20] none true : Inner Nat Nat) 5 30 = some r) :=
  ⟨by decide,
    (claim_C10_duplicate_separator_panics
      (Inner.mk [5] [10, 20] none true) 5 5 30 (by decide)).1,
    (claim_C10_duplicate_separator_panics
      (Inner.mk [5] [10, 20] none true) 5 5 30 (by decide)).2⟩

end Amphis.InnerNode

namespace Amphis.LeafMgr

/-- C8: `write_data` refuses exactly when the aligned tail would pass
`END_TAIL_OFFSET`; otherwise it writes the encoded pair at
`id * LEAF_SIZE + offset` (and nowhere else) and returns the new aligned
tail. -/
theorem claim_C8_write_data_capacity (file : Nat → Nat) (id offset : Nat)
    (key value : List Nat) :
    (write_data file id offset key value = none ↔
      END_TAIL_OFFSET < offset + Amphis.round_up_size
        (Amphis.get_data_size key.length value.length)) ∧
    (offset + Amphis.round_up_size
        (Amphis.get_data_size key.length value.length) ≤ END_TAIL_OFFSET →
      write_data file id offset key value =
        some (writeBytes file (id * LEAF_SIZE + offset)
            (Amphis.format_data_with_crc key value),
          offset + Amphis.round_up_size
            (Amphis.get_data_size key.length value.length)) ∧
      (∀ j, j < (Amphis.format_data_with_crc key value).length →
        writeBytes file (id * LEAF_SIZE + offset)
            (Amphis.format_data_with_crc key value)
            (id * LEAF_SIZE + offset + j) =
          (Amphis.format_data_with_crc key value).getD j 0) ∧
      (∀ a, a < id * LEAF_SIZE + offset ∨
          id * LEAF_SIZE + offset +
            (Amphis.format_data_with_crc key value).length ≤ a →
        writeBytes file (id * LEAF_SIZE + offset)
            (Amphis.format_data_with_crc key value) a = file a)) := by
  constructor
  · unfold write_data
    by_cases hc : END_TAIL_OFFSET < offset + Amphis.round_up_size
        (Amphis.get_data_size key.length value.length)
    · rw [if_pos hc]
      simp [hc]
    · rw [if_neg hc]
      simp [hc]
  · intro hle
    refine ⟨?_, ?_, ?_⟩
    · unfold write_data
      rw [if_neg (not_lt.mpr hle)]
    · intro j hj
      unfold writeBytes
      rw [if_pos ⟨Nat.le_add_right _ _, by omega⟩]
      congr 1
      omega
    · intro a ha
      unfold writeBytes
      rw [if_neg ?_]
      rcases ha with h | h
      · exact fun hh => absurd hh.1 (not_le.mpr h)
      · exact fun hh => absurd hh.2 (not_lt.mpr h)

/-- Witness for C8: a small write that fits, and the refusal bound at a
concrete overflowing offset. -/
theorem claim_C8_witness :
    (4096 + Amphis.round_up_size (Amphis.get_data_size 1 2) ≤
      END_TAIL_OFFSET) ∧
    write_data (fun _ => 0) 1 4096 [7] [8, 9] =
      some (writeBytes (fun _ => 0) (1 * LEAF_SIZE + 4096)
          (Amphis.format_data_with_crc [7] [8, 9]),
        4096 + Amphis.round_up_size (Amphis.get_data_size 1 2)) :=
  ⟨by decide,
    ((claim_C8_write_data_capacity (fun _ => 0) 1 4096 [7] [8, 9]).2
      (by decide)).1⟩

end Amphis.LeafMgr

namespace Amphis.SpIdx

variable {K : Type} [LinearOrder K]

/-- C4 (counterexample): `get` is not total.  After the single insertion of
key `5`, `get 3` hits the `range(..key).last().unwrap()` panic (`none`):
no indexed key is `≤ 3`, because the minimum *indexed* key need not be the
minimum key of the lookup's domain. -/
theorem claim_C4_counterexample :
    get (insert (new (K := Nat)) 5 100) 3 = none := rfl

theorem get_eq_none_of_no_le {s : SparseIndex K} {key : K}
    (h : ∀ e ∈ s.index, ¬ e.1 ≤ key) : get s key = none := by
  unfold get
  rw [btGet_eq_none_of_not_mem fun e he heq =>
    h e he (le_of_eq heq)]
  have : s.index.filter (fun e => e.1 < key) = [] :=
    List.filter_eq_nil_iff.mpr fun e he => by
      simpa using fun hlt => h e he (le_of_lt hlt)
  rw [this]
  rfl

/-- C4 (amended): the retention rule of `insert` as claimed (for in-range,
monotone offsets), and `get` as the greatest-indexed-key-`≤`-lookup — which
panics (`none`) whenever no indexed key is `≤ key`, so totality holds only
on keys at or above the minimum indexed key, not for every key. -/
theorem claim_C4_sparse_index_contract (s : SparseIndex K) (key : K)
    (offset : Nat) (hs : s.index.Pairwise (fun a b => a.1 < b.1))
    (hle : s.prev_offset = USIZE_MAX ∨ s.prev_offset ≤ offset)
    (hoff : offset < 2 ^ 64) :
    ((s.prev_offset = USIZE_MAX ∨ LEAST_OFFSET ≤ offset - s.prev_offset) →
      insert s key offset = ⟨offset, btInsert key offset s.index⟩) ∧
    (¬ (s.prev_offset = USIZE_MAX ∨
        LEAST_OFFSET ≤ offset - s.prev_offset) →
      insert s key offset = s) ∧
    get s key =
      ((s.index.filter (fun e => e.1 ≤ key)).getLast?).map (·.2) ∧
    ((∀ e ∈ s.index, ¬ e.1 ≤ key) → get s key = none) :=
  ⟨(insert_retained_iff hle hoff).1, (insert_retained_iff hle hoff).2,
    get_eq_greatest_le hs, get_eq_none_of_no_le⟩

/-- Witness for C4 on a one-entry index. -/
theorem claim_C4_witness :
    (([((5 : Nat), 100)] : List (Nat × Nat)).Pairwise
      (fun a b => a.1 < b.1)) ∧
    (((100 : Nat) = USIZE_MAX ∨ (100 : Nat) ≤ 200) ∧ (200 : Nat) < 2 ^ 64) ∧
    ((((100 : Nat) = USIZE_MAX ∨ LEAST_OFFSET ≤ 200 - 100) →
      insert (⟨100, [(5, 100)]⟩ : SparseIndex Nat) 7 200 =
        ⟨200, btInsert 7 200 [(5, 100)]⟩) ∧
    (¬ ((100 : Nat) = USIZE_MAX ∨ LEAST_OFFSET ≤ 200 - 100) →
      insert (⟨100, [(5, 100)]⟩ : SparseIndex Nat) 7 200 =
        ⟨100, [(5, 100)]⟩) ∧
    get (⟨100, [(5, 100)]⟩ : SparseIndex Nat) 7 =
      ((([((5 : Nat), 100)] : List (Nat × Nat)).filter
        (fun e => e.1 ≤ 7)).getLast?).map (·.2) ∧
    ((∀ e ∈ ([((5 : Nat), 100)] : List (Nat × Nat)), ¬ e.1 ≤ 7) →
      get (⟨100, [(5, 100)]⟩ : SparseIndex Nat) 7 = none)) :=
  ⟨by decide, ⟨by decide, by decide⟩,
    claim_C4_sparse_index_contract (⟨100, [(5, 100)]⟩ : SparseIndex Nat)
      7 200 (by decide) (by decide) (by decide)⟩

end Amphis.SpIdx

namespace Amphis.Sst

variable {K V : Type} [LinearOrder K] [LinearOrder V]
variable (sizeK : K → Nat) (sizeV : V → Nat)

theorem pairStarts_mem {ps : List (K × V)} {off0 : Nat}
    {e : Nat × K × V} (h : e ∈ pairStarts sizeK sizeV ps off0) :
    (e.2.1, e.2.2) ∈ ps := by
  induction ps generalizing off0 with
  | nil => cases h
  | cons p t ih =>
    rcases List.mem_cons.mp h with h' | h'
    · subst h'
      exact List.mem_cons_self _ _
    · exact List.mem_cons_of_mem _ (ih h')

theorem pairStarts_complete {ps : List (K × V)} {k : K} {v : V}
    (h : (k, v) ∈ ps) :
    ∀ off0, ∃ off, (off, k, v) ∈ pairStarts sizeK sizeV ps off0 := by
  induction ps with
  | nil => cases h
  | cons p t ih =>
    intro off0
    rcases List.mem_cons.mp h with h' | h'
    · exact ⟨off0, by rw [← h']; exact List.mem_cons_self _ _⟩
    · obtain ⟨off, hoff⟩ := ih h' (off0 +
        Amphis.get_data_size (sizeK p.1) (sizeV p.2))
      exact ⟨off, List.mem_cons_of_mem _ hoff⟩

theorem nodup_keys_val {ps : List (K × V)} {k : K} {a b : V}
    (hnd : (ps.map (·.1)).Nodup) (ha : (k, a) ∈ ps) (hb : (k, b) ∈ ps) :
    a = b := by
  induction ps with
  | nil => cases ha
  | cons p t ih =>
    rw [List.map_cons, List.nodup_cons] at hnd
    rcases List.mem_cons.mp ha with h1 | h1 <;>
      rcases List.mem_cons.mp hb with h2 | h2
    · rw [← h1] at h2
      exact (Prod.mk.injEq _ _ _ _).mp h2.symm |>.2
    · exact absurd (List.mem_map.mpr ⟨(k, b), h2, by rw [← h1]⟩) hnd.1
    · exact absurd (List.mem_map.mpr ⟨(k, a), h1, by rw [← h2]⟩) hnd.1
    · exact ih hnd.2 h1 h2

theorem tableLookup_of_not_mem {ps : List (K × V)} {key : K} {off : Nat}
    (h : key ∉ ps.map (·.1)) :
    tableLookup sizeK sizeV ps off key = none := by
  unfold tableLookup
  rw [List.findSome?_eq_none_iff]
  intro e he
  have hmem : e ∈ pairStarts sizeK sizeV ps 0 :=
    (List.dropWhile_sublist _).mem he
  have : e.2.1 ≠ key := fun hk =>
    h (List.mem_map.mpr ⟨(e.2.1, e.2.2), pairStarts_mem sizeK sizeV hmem,
      hk⟩)
  simp [this]

theorem findSome?_first_of_all {α β : Type} {f : α → Option β}
    {l : List α} {e0 : α} {b : β}
    (hall : ∀ e ∈ l, f e = none ∨ f e = some b)
    (he0 : e0 ∈ l) (hf : f e0 = some b) : l.findSome? f = some b := by
  induction l with
  | nil => cases he0
  | cons a t ih =>
    rw [List.findSome?_cons]
    rcases hha : f a with _ | c
    · rcases List.mem_cons.mp he0 with h | h
      · rw [h] at hf
        rw [hf] at hha
        cases hha
      · exact ih (fun e he => hall e (List.mem_cons_of_mem _ he)) h
    · rcases hall a (List.mem_cons_self _ _) with h | h
      · rw [hha] at h
        cases h
      · rw [hha] at h
        exact h

theorem tableLookup_hit {ps : List (K × V)} {key : K} {v : V}
    {off s : Nat} (hnd : (ps.map (·.1)).Nodup) (hmem : (key, v) ∈ ps)
    (hks : keyStart sizeK sizeV ps key = some s) (hle : off ≤ s) :
    tableLookup sizeK sizeV ps off key = some v := by
  unfold keyStart at hks
  rcases hfind : (pairStarts sizeK sizeV ps 0).find? fun e =>
      decide (e.2.1 = key) with _ | e0
  · rw [hfind] at hks
    cases hks
  · rw [hfind] at hks
    have he0key : e0.2.1 = key := by
      have := List.find?_some hfind
      simpa using this
    have he0s : e0.1 = s := by
      simpa using hks
    have he0mem : e0 ∈ pairStarts sizeK sizeV ps 0 :=
      List.mem_of_find?_eq_some hfind
    have he0v : e0.2.2 = v := by
      have h1 : (key, e0.2.2) ∈ ps := by
        rw [← he0key]
        exact pairStarts_mem sizeK sizeV he0mem
      exact nodup_keys_val hnd h1 hmem
    unfold tableLookup
    have hdrop : e0 ∈ (pairStarts sizeK sizeV ps 0).dropWhile fun e =>
        decide (e.1 < off) := by
      have hsplit := List.takeWhile_append_dropWhile
        (p := fun e => decide (e.1 < off))
        (l := pairStarts sizeK sizeV ps 0)
      rcases List.mem_append.mp (by rw [hsplit]; exact he0mem) with h | h
      · have := List.mem_takeWhile_imp h
        rw [he0s] at this
        exact absurd (of_decide_eq_true this) (not_lt.mpr hle)
      · exact h
    refine findSome?_first_of_all ?_ hdrop ?_
    · intro e he
      by_cases hk : e.2.1 = key
      · right
        have hev : e.2.2 = v := by
          have h1 : (key, e.2.2) ∈ ps := by
            rw [← hk]
            exact pairStarts_mem sizeK sizeV
              ((List.dropWhile_sublist _).mem he)
          exact nodup_keys_val hnd h1 hmem
        simp [hk, hev]
      · left
        simp [hk]
    · simp [he0key, he0v]

end Amphis.Sst

namespace Amphis.Sst

variable {K V : Type} [LinearOrder K] [LinearOrder V]
variable (sizeK : K → Nat) (sizeV : V → Nat)

theorem tableVal_eq_none_iff {t : TableEntry K V} {key : K} :
    tableVal t key = none ↔ ¬ tableHas t key := by
  unfold tableVal tableHas
  rcases hf : t.pairs.find? fun p => decide (p.1 = key) with _ | p
  · rw [hf]
    simp only [Option.map_none', true_iff]
    intro hk
    obtain ⟨q, hq, hqk⟩ := List.mem_map.mp hk
    exact List.find?_eq_none.mp hf q hq (by simpa using hqk)
  · rw [hf]
    simp only [Option.map_some']
    constructor
    · intro h
      cases h
    · intro h
      exfalso
      apply h
      have hk : p.1 = key := by simpa using List.find?_some hf
      exact List.mem_map.mpr ⟨p, List.mem_of_find?_eq_some hf, hk⟩

theorem tableVal_some_mem {t : TableEntry K V} {key : K} {v : V}
    (h : tableVal t key = some v) : (key, v) ∈ t.pairs := by
  unfold tableVal at h
  rcases hf : t.pairs.find? fun p => decide (p.1 = key) with _ | p
  · rw [hf] at h
    cases h
  · rw [hf] at h
    have hk : p.1 = key := by simpa using List.find?_some hf
    have hv : p.2 = v := by simpa using h
    have := List.mem_of_find?_eq_some hf
    rw [← hk, ← hv]
    simpa using this

theorem sstableGetDesc_cons {t : TableEntry K V}
    {rest : List (TableEntry K V)} {key : K}
    (hwf : wfLookup sizeK sizeV t key) :
    sstableGetDesc sizeK sizeV (t :: rest) key =
      match tableVal t key with
      | some v => some (some v)
      | none => sstableGetDesc sizeK sizeV rest key := by
  obtain ⟨hfn, hwfo, hnd⟩ := hwf
  rcases hchk : t.check key with _ | _
  · have hval : tableVal t key = none :=
      tableVal_eq_none_iff.mpr fun hk => by
        rw [hfn hk] at hchk
        cases hchk
    rw [hval]
    show sstableGetDesc sizeK sizeV (t :: rest) key =
      sstableGetDesc sizeK sizeV rest key
    simp only [sstableGetDesc]
    rw [if_neg (by simp [hchk])]
  · have hob := hwfo hchk
    unfold wfOffB at hob
    simp only [sstableGetDesc]
    rw [if_pos hchk]
    rcases hidx : Amphis.SpIdx.get t.index key with _ | off
    · rw [hidx] at hob
      cases hob
    · rw [hidx] at hob
      show (match tableLookup sizeK sizeV t.pairs off key with
        | some v => some (some v)
        | none => sstableGetDesc sizeK sizeV rest key) =
        match tableVal t key with
        | some v => some (some v)
        | none => sstableGetDesc sizeK sizeV rest key
      rcases hval : tableVal t key with _ | v
      · rw [tableLookup_of_not_mem sizeK sizeV
          (fun hk => tableVal_eq_none_iff.mp hval hk)]
      · have hpmem : (key, v) ∈ t.pairs := tableVal_some_mem hval
        obtain ⟨off1, hoff1⟩ := pairStarts_complete sizeK sizeV hpmem 0
        obtain ⟨s, hks⟩ :
            ∃ s, keyStart sizeK sizeV t.pairs key = some s := by
          rcases hfind : (pairStarts sizeK sizeV t.pairs 0).find? fun e =>
              decide (e.2.1 = key) with _ | e0
          · exact absurd (List.find?_eq_none.mp hfind (off1, key, v) hoff1)
              (by simp)
          · exact ⟨e0.1, by unfold keyStart; rw [hfind]; rfl⟩
        rw [hks] at hob
        rw [tableLookup_hit sizeK sizeV hnd hpmem hks
          (of_decide_eq_true hob)]

theorem sstableGetDesc_eq {ts : List (TableEntry K V)} {key : K}
    (hwf : ∀ t ∈ ts, wfLookup sizeK sizeV t key) :
    sstableGetDesc sizeK sizeV ts key =
      some (ts.findSome? fun t => tableVal t key) := by
  induction ts with
  | nil => rfl
  | cons t rest ih =>
    rw [sstableGetDesc_cons sizeK sizeV (hwf t (List.mem_cons_self _ _)),
      List.findSome?_cons]
    rcases hval : tableVal t key with _ | v
    · exact ih fun u hu => hwf u (List.mem_cons_of_mem _ hu)
    · rfl

theorem findSome?_max_id {key : K} :
    ∀ (r : List (TableEntry K V)),
      (r.map TableEntry.id).Pairwise (· > ·) →
      ∀ t ∈ r, tableVal t key ≠ none →
        (∀ u ∈ r, tableVal u key ≠ none → u.id ≤ t.id) →
        r.findSome? (fun u => tableVal u key) = tableVal t key := by
  intro r
  induction r with
  | nil => intro _ t ht; cases ht
  | cons e rest ih =>
    intro hsort t ht htv hmax
    rw [List.map_cons, List.pairwise_cons] at hsort
    rw [List.findSome?_cons]
    rcases hev : tableVal e key with _ | v
    · rcases List.mem_cons.mp ht with h | h
      · subst h
        exact absurd hev htv
      · exact ih hsort.2 t h htv fun u hu huv =>
          hmax u (List.mem_cons_of_mem _ hu) huv
    · rcases List.mem_cons.mp ht with h | h
      · subst h
        rw [hev]
      · have h1 : e.id ≤ t.id :=
          hmax e (List.mem_cons_self _ _) (by simp [hev])
        have h2 : t.id < e.id :=
          hsort.1 t.id (List.mem_map.mpr ⟨t, h, rfl⟩)
        omega

/-- C5: under the registration invariants, `SstableManager::get` returns
`Some` of the newest-first scan of the tables — the value of the
greatest-id table whose file holds the key — skipping tables whose filter
rejects the key; in particular the greatest-id holder of the key wins. -/
theorem claim_C5_sstable_lookup_order (tables : List (TableEntry K V))
    (key : K) (hids : (tables.map TableEntry.id).Sorted (· < ·))
    (hwf : ∀ t ∈ tables, wfLookup sizeK sizeV t key) :
    sstableGet sizeK sizeV tables key =
      some (tables.reverse.findSome? fun t => tableVal t key) ∧
    (∀ t ∈ tables, tableVal t key ≠ none →
      (∀ u ∈ tables, tableVal u key ≠ none → u.id ≤ t.id) →
      sstableGet sizeK sizeV tables key = some (tableVal t key)) := by
  have h1 : sstableGet sizeK sizeV tables key =
      some (tables.reverse.findSome? fun t => tableVal t key) := by
    unfold sstableGet
    exact sstableGetDesc_eq sizeK sizeV fun t ht =>
      hwf t (List.mem_reverse.mp ht)
  refine ⟨h1, fun t ht htv hmax => ?_⟩
  rw [h1]
  have hsort : (tables.reverse.map TableEntry.id).Pairwise (· > ·) := by
    rw [List.map_reverse, List.pairwise_reverse]
    exact hids
  rw [findSome?_max_id tables.reverse hsort t (List.mem_reverse.mpr ht)
    htv fun u hu huv => hmax u (List.mem_reverse.mp hu) huv]

end Amphis.Sst


namespace Amphis.Sst

/-- Witness for C5: two tables hold key `5`; the id-2 table wins. -/
theorem claim_C5_witness :
    (([c5t0, c5t2].map TableEntry.id).Sorted (· < ·)) ∧
    (∀ t ∈ [c5t0, c5t2], wfLookup id id t 5) ∧
    (sstableGet id id [c5t0, c5t2] 5 =
      some ([c5t0, c5t2].reverse.findSome? fun t => tableVal t 5) ∧
    (∀ t ∈ [c5t0, c5t2], tableVal t 5 ≠ none →
      (∀ u ∈ [c5t0, c5t2], tableVal u 5 ≠ none → u.id ≤ t.id) →
      sstableGet id id [c5t0, c5t2] 5 = some (tableVal t 5))) ∧
    sstableGet id id [c5t0, c5t2] 5 = some (some 70) :=
  ⟨by decide, by decide,
    claim_C5_sstable_lookup_order id id [c5t0, c5t2] 5 (by decide)
      (by decide),
    by decide⟩

end Amphis.Sst

namespace Amphis.Flush

theorem flush_run (ps : List (List Nat × List Nat)) :
    ∀ st : FlushState,
      (ps.foldl step st).file =
        st.file ++ ps.flatMap
          (fun kv => Amphis.format_data_with_crc kv.1 kv.2) ∧
      (ps.foldl step st).filterKeys = st.filterKeys ++ ps.map (·.1) ∧
      (ps.foldl step st).calls =
        st.calls ++ (specOffsets ps st.offset).map (fun e => (e.1.1, e.2)) ∧
      (ps.foldl step st).offset =
        st.offset + (ps.map
          (fun kv => Amphis.get_data_size kv.1.length kv.2.length)).sum ∧
      (ps.foldl step st).index =
        (specOffsets ps st.offset).foldl
          (fun s e => Amphis.SpIdx.insert s e.1.1 e.2) st.index := by
  induction ps with
  | nil => intro st; simp [specOffsets]
  | cons p t ih =>
    intro st
    obtain ⟨h1, h2, h3, h4, h5⟩ := ih (step st p)
    rw [List.foldl_cons]
    refine ⟨?_, ?_, ?_, ?_, ?_⟩
    · rw [h1]
      simp [step, List.append_assoc]
    · rw [h2]
      simp [step, List.append_assoc]
    · rw [h3]
      simp [step, specOffsets, List.append_assoc]
    · rw [h4]
      simp [step, specOffsets]
      omega
    · rw [h5]
      simp [step, specOffsets]

theorem flushKvBytes_eq_foldl (leaves : List (List (List Nat × List Nat))) :
    ∀ st : FlushState,
      leaves.foldl flushLeafBytes st =
        (leaves.flatMap (fun l => Amphis.Tree.sortPairs l)).foldl step st := by
  induction leaves with
  | nil => intro st; rfl
  | cons a t ih =>
    intro st
    rw [List.foldl_cons, List.flatMap_cons, List.foldl_append]
    exact ih _

theorem specOffsets_begin (ps : List (List Nat × List Nat)) :
    ∀ off0 kv off, (kv, off) ∈ specOffsets ps off0 →
      off0 ≤ off ∧
      ((ps.flatMap (fun p => Amphis.format_data_with_crc p.1 p.2)).drop
          (off - off0)).take
          (Amphis.format_data_with_crc kv.1 kv.2).length =
        Amphis.format_data_with_crc kv.1 kv.2 := by
  induction ps with
  | nil => intro off0 kv off h; cases h
  | cons p t ih =>
    intro off0 kv off h
    rw [specOffsets] at h
    rcases List.mem_cons.mp h with h' | h'
    · have hkv : kv = p := congrArg Prod.fst h'
      have hoff : off = off0 := congrArg Prod.snd h'
      subst hkv
      subst hoff
      refine ⟨le_rfl, ?_⟩
      rw [Nat.sub_self, List.drop_zero, List.flatMap_cons, List.take_left]
    · obtain ⟨hle, hdt⟩ := ih _ _ _ h'
      have hlen : (Amphis.format_data_with_crc p.1 p.2).length =
          Amphis.get_data_size p.1.length p.2.length :=
        Amphis.format_data_with_crc_length p.1 p.2
      refine ⟨by omega, ?_⟩
      rw [List.flatMap_cons]
      have hsplit : off - off0 =
          (Amphis.format_data_with_crc p.1 p.2).length +
            (off - (off0 + Amphis.get_data_size p.1.length p.2.length)) := by
        rw [hlen]
        omega
      rw [hsplit, List.drop_append]
      exact hdt

end Amphis.Flush

namespace Amphis.Tree

variable {K V : Type} [LinearOrder K] [LinearOrder V]

theorem sortPairs_perm (l : List (K × V)) : (sortPairs l).Perm l :=
  List.perm_insertionSort pairLe l

theorem sortPairs_key_sorted (l : List (K × V)) :
    ((sortPairs l).map (·.1)).Sorted (· ≤ ·) := by
  have hp : (sortPairs l).Pairwise pairLe :=
    List.sorted_insertionSort pairLe l
  refine List.Pairwise.map _ ?_ hp
  intro a b hab
  rcases hab with h | ⟨h, _⟩
  · exact le_of_lt h
  · exact le_of_eq h

end Amphis.Tree

namespace Amphis.Flush

theorem flat_keys_sorted
    (leaves : List (List (List Nat × List Nat)))
    (hasc : leaves.Pairwise (fun a b => ∀ p ∈ a, ∀ q ∈ b, p.1 < q.1)) :
    (((leaves.flatMap (fun l => Amphis.Tree.sortPairs l)).map
      (·.1))).Sorted (· ≤ ·) := by
  induction leaves with
  | nil => exact List.sorted_nil
  | cons a t ih =>
    rw [List.pairwise_cons] at hasc
    rw [List.flatMap_cons, List.map_append]
    refine List.pairwise_append.mpr
      ⟨Amphis.Tree.sortPairs_key_sorted a, ih hasc.2, ?_⟩
    intro x hx y hy
    obtain ⟨p, hp, hpx⟩ := List.mem_map.mp hx
    obtain ⟨q, hq, hqy⟩ := List.mem_map.mp hy
    obtain ⟨l', hl', hql'⟩ := List.mem_flatMap.mp hq
    have hpa : p ∈ a := (Amphis.Tree.sortPairs_perm a).mem_iff.mp hp
    have hql : q ∈ l' := (Amphis.Tree.sortPairs_perm l').mem_iff.mp hql'
    have := hasc.1 l' hl' p hpa q hql
    rw [← hpx, ← hqy]
    exact le_of_lt this

/-- C6: the write loop of `flush_kv` produces the raw concatenation of the
pair encodings (no padding); every key goes to the bloom filter, in order;
every `index.insert` call pairs its key with the running unaligned offset,
which is exactly the byte position where that pair's encoding begins in the
file; the final offset is the file length; and when the per-leaf key sets
ascend along the chain, the written pairs are in ascending key order. -/
theorem claim_C6_flush_table_layout
    (leaves : List (List (List Nat × List Nat)))
    (hasc : leaves.Pairwise (fun a b => ∀ p ∈ a, ∀ q ∈ b, p.1 < q.1)) :
    (flushKvBytes leaves).file =
      (leaves.flatMap (fun l => Amphis.Tree.sortPairs l)).flatMap
        (fun kv => Amphis.format_data_with_crc kv.1 kv.2) ∧
    (flushKvBytes leaves).filterKeys =
      (leaves.flatMap (fun l => Amphis.Tree.sortPairs l)).map (·.1) ∧
    (flushKvBytes leaves).calls =
      (specOffsets (leaves.flatMap (fun l => Amphis.Tree.sortPairs l))
        0).map (fun e => (e.1.1, e.2)) ∧
    (flushKvBytes leaves).offset = (flushKvBytes leaves).file.length ∧
    (flushKvBytes leaves).index =
      (specOffsets (leaves.flatMap (fun l => Amphis.Tree.sortPairs l))
        0).foldl (fun s e => Amphis.SpIdx.insert s e.1.1 e.2)
        Amphis.SpIdx.new ∧
    (∀ kv off,
      (kv, off) ∈
        specOffsets (leaves.flatMap (fun l => Amphis.Tree.sortPairs l)) 0 →
      (((flushKvBytes leaves).file.drop off).take
          (Amphis.format_data_with_crc kv.1 kv.2).length =
        Amphis.format_data_with_crc kv.1 kv.2)) ∧
    ((leaves.flatMap (fun l => Amphis.Tree.sortPairs l)).map
      (·.1)).Sorted (· ≤ ·) := by
  have hfold : flushKvBytes leaves =
      (leaves.flatMap (fun l => Amphis.Tree.sortPairs l)).foldl step init :=
    flushKvBytes_eq_foldl leaves init
  obtain ⟨h1, h2, h3, h4, h5⟩ :=
    flush_run (leaves.flatMap (fun l => Amphis.Tree.sortPairs l)) init
  rw [hfold]
  refine ⟨by simpa using h1, by simpa using h2, by simpa using h3, ?_,
    by simpa using h5, ?_, flat_keys_sorted leaves hasc⟩
  · rw [h4, h1]
    simp only [init, List.nil_append, Nat.zero_add]
    rw [List.length_flatMap]
    congr 1
    apply List.map_congr_left
    intro kv _
    simp [Function.comp, Amphis.format_data_with_crc_length]
  · intro kv off hm
    have := (specOffsets_begin
      (leaves.flatMap (fun l => Amphis.Tree.sortPairs l)) 0 kv off hm).2
    rw [h1]
    simpa using this

end Amphis.Flush


namespace Amphis.Flush

/-- Witness for C6 on `c6leaves`. -/
theorem claim_C6_witness :
    c6leaves.Pairwise (fun a b => ∀ p ∈ a, ∀ q ∈ b, p.1 < q.1) ∧
    ((flushKvBytes c6leaves).file =
      (c6leaves.flatMap (fun l => Amphis.Tree.sortPairs l)).flatMap
        (fun kv => Amphis.format_data_with_crc kv.1 kv.2) ∧
    (flushKvBytes c6leaves).filterKeys =
      (c6leaves.flatMap (fun l => Amphis.Tree.sortPairs l)).map (·.1) ∧
    (flushKvBytes c6leaves).calls =
      (specOffsets (c6leaves.flatMap (fun l => Amphis.Tree.sortPairs l))
        0).map (fun e => (e.1.1, e.2)) ∧
    (flushKvBytes c6leaves).offset = (flushKvBytes c6leaves).file.length ∧
    (flushKvBytes c6leaves).index =
      (specOffsets (c6leaves.flatMap (fun l => Amphis.Tree.sortPairs l))
        0).foldl (fun s e => Amphis.SpIdx.insert s e.1.1 e.2)
        Amphis.SpIdx.new ∧
    (∀ kv off,
      (kv, off) ∈
        specOffsets (c6leaves.flatMap (fun l => Amphis.Tree.sortPairs l))
          0 →
      (((flushKvBytes c6leaves).file.drop off).take
          (Amphis.format_data_with_crc kv.1 kv.2).length =
        Amphis.format_data_with_crc kv.1 kv.2)) ∧
    ((c6leaves.flatMap (fun l => Amphis.Tree.sortPairs l)).map
      (·.1)).Sorted (· ≤ ·)) :=
  ⟨by decide, claim_C6_flush_table_layout c6leaves (by decide)⟩

end Amphis.Flush

namespace Amphis.Tree

variable {K V : Type} [LinearOrder K] [LinearOrder V]
variable (sizeK : K → Nat) (sizeV : V → Nat) (hash : K → Nat)

theorem getEmptySlot_spec {l : LeafM K V} {slot : Nat}
    (h : getEmptySlot l = some slot) :
    slot < l.slots.length ∧ l.slots.get? slot = some none := by
  unfold getEmptySlot at h
  rcases hf : l.slots.enum.find? fun e => e.2.isNone with _ | e0
  · rw [hf] at h
    cases h
  · rw [hf] at h
    have he0 : e0.1 = slot := by simpa using h
    have hnone : e0.2.isNone := by simpa using List.find?_some hf
    have hmem := List.mem_of_find?_eq_some hf
    have hget : l.slots.get? e0.1 = some e0.2 :=
      List.mk_mem_enum_iff_get?.mp (by
        rw [show (e0.1, e0.2) = e0 from rfl]
        exact hmem)
    rw [he0] at hget
    rcases e0 with ⟨i1, o⟩
    rcases o with _ | x
    · refine ⟨?_, hget⟩
      have := List.get?_eq_some.mp hget
      exact this.1
    · cases hnone

theorem writeSlot_mem {h : Heap K V} {i : Nat} (k : K) (v : V)
    {obj : LeafObj K V} {slot : Nat}
    (hobj : h.get? i = some obj)
    (hslot : getEmptySlot obj.ram = some slot) :
    ∃ obj', (writeSlot sizeK sizeV hash h i k v).get? i = some obj' ∧
      (k, v) ∈ leafPairs obj'.ram := by
  obtain ⟨hlt, hg⟩ := getEmptySlot_spec hslot
  have hi : i < h.length := (List.get?_eq_some.mp hobj).1
  unfold writeSlot
  simp only [hobj, hslot]
  unfold commitLeaf
  simp only [List.get?_set_eq_of_lt, List.length_set, hi]
  refine ⟨_, rfl, ?_⟩
  unfold leafPairs occupiedEntries
  refine List.mem_map.mpr ⟨(hash k, k, v), ?_, rfl⟩
  refine List.mem_filterMap.mpr ⟨some (hash k, k, v), ?_, rfl⟩
  exact List.get?_mem (List.get?_set_eq_of_lt _ hlt)

end Amphis.Tree

namespace Amphis.Tree

variable {K V : Type} [LinearOrder K] [LinearOrder V]
variable (sizeK : K → Nat) (sizeV : V → Nat) (hash : K → Nat)

/-- C3 (amended): when `Leaf::insert` finds the leaf full (after
invalidation, with no reclamation due) and the split succeeds with key
`sk` and leaves the new sibling at heap position `sib`, the incoming pair
is handed to the *sibling's own insert* exactly when `sk < key`
(equivalently `sk ≤ key`, the stored copy of `key` having been
invalidated first) — so it lands in the sibling's chain, in the sibling
itself only if that insert does not split again — and is written locally
otherwise (landing in this leaf whenever a slot is free); in both cases
the call returns `Some sk`. -/
theorem claim_C3_leaf_split_routing (fuel : Nat) (h : Heap K V) (i : Nat)
    (k : K) (v : V) (obj : LeafObj K V) (h3 : Heap K V) (sk : K)
    (sib : Nat) (hobj : h.get? i = some obj)
    (hrec : needReclamation sizeK sizeV (invalidate hash obj.ram k) =
      false)
    (hfull : needSplit (invalidate hash obj.ram k)
      (sizeK k + sizeV v) = true)
    (hsplit : leafSplit sizeK sizeV hash fuel
      (updRam h i fun _ => invalidate hash obj.ram k) i = some (h3, sk))
    (hsib : (h3.get? i).bind (fun o => o.ram.next) = some sib) :
    (sk < k →
      leafInsert sizeK sizeV hash (fuel + 1) h i k v =
        (leafInsert sizeK sizeV hash fuel h3 sib k v).map
          (fun r => (r.1, some sk))) ∧
    (¬ sk < k →
      leafInsert sizeK sizeV hash (fuel + 1) h i k v =
        some (writeSlot sizeK sizeV hash h3 i k v, some sk) ∧
      (∀ obj3 slot, h3.get? i = some obj3 →
        getEmptySlot obj3.ram = some slot →
        ∃ obj', (writeSlot sizeK sizeV hash h3 i k v).get? i =
            some obj' ∧ (k, v) ∈ leafPairs obj'.ram)) ∧
    (∀ r, leafInsert sizeK sizeV hash (fuel + 1) h i k v = some r →
      r.2 = some sk) := by
  have hstep : leafInsert sizeK sizeV hash (fuel + 1) h i k v =
      if sk < k then
        (match leafInsert sizeK sizeV hash fuel h3 sib k v with
         | none => none
         | some r => some (r.1, some sk))
      else some (writeSlot sizeK sizeV hash h3 i k v, some sk) := by
    rw [leafInsert]
    simp only [hobj, hrec, Bool.false_eq_true, if_false, hfull, if_true,
      hsplit, hsib]
    by_cases hlt : sk < k
    · rw [if_pos hlt, if_pos hlt]
      rcases leafInsert sizeK sizeV hash fuel h3 sib k v with _ | r
      · rfl
      · rfl
    · rw [if_neg hlt, if_neg hlt]
  refine ⟨?_, ?_, ?_⟩
  · intro hlt
    rw [hstep, if_pos hlt]
    rcases leafInsert sizeK sizeV hash fuel h3 sib k v with _ | r
    · rfl
    · rfl
  · intro hlt
    refine ⟨by rw [hstep, if_neg hlt], ?_⟩
    intro obj3 slot hobj3 hslot
    exact writeSlot_mem sizeK sizeV hash k v hobj3 hslot
  · intro r hr
    rw [hstep] at hr
    by_cases hlt : sk < k
    · rw [if_pos hlt] at hr
      rcases hres : leafInsert sizeK sizeV hash fuel h3 sib k v with _ | r1
      · simp only [hres] at hr
        cases hr
      · simp only [hres] at hr
        cases hr
        rfl
    · rw [if_neg hlt] at hr
      cases hr
      rfl

end Amphis.Tree

namespace Amphis.Tree

/-- Witness for the amended C3 on the `c3heap` run. -/
theorem claim_C3_witness :
    c3heap.get? 0 = some c3obj ∧
    needReclamation keyLen9 valLen (invalidate hash0 c3obj.ram 99) =
      false ∧
    needSplit (invalidate hash0 c3obj.ram 99) (keyLen9 99 + valLen 0) =
      true ∧
    leafSplit keyLen9 valLen hash0 15
      (updRam c3heap 0 fun _ => invalidate hash0 c3obj.ram 99) 0 =
      some (c3h3, 20) ∧
    ((c3h3.get? 0).bind (fun o => o.ram.next) = some 1) ∧
    (((20 : Nat) < 99 →
      leafInsert keyLen9 valLen hash0 (15 + 1) c3heap 0 99 0 =
        (leafInsert keyLen9 valLen hash0 15 c3h3 1 99 0).map
          (fun r => (r.1, some 20))) ∧
    (¬ (20 : Nat) < 99 →
      leafInsert keyLen9 valLen hash0 (15 + 1) c3heap 0 99 0 =
        some (writeSlot keyLen9 valLen hash0 c3h3 0 99 0, some 20) ∧
      (∀ obj3 slot, c3h3.get? 0 = some obj3 →
        getEmptySlot obj3.ram = some slot →
        ∃ obj', (writeSlot keyLen9 valLen hash0 c3h3 0 99 0).get? 0 =
            some obj' ∧ (99, 0) ∈ leafPairs obj'.ram)) ∧
    (∀ r, leafInsert keyLen9 valLen hash0 (15 + 1) c3heap 0 99 0 =
        some r → r.2 = some 20)) :=
  ⟨rfl, rfl, rfl, rfl, rfl,
    claim_C3_leaf_split_routing keyLen9 valLen hash0 15 c3heap 0 99 0
      c3obj c3h3 20 1 rfl rfl rfl rfl rfl⟩

end Amphis.Tree

namespace Amphis.Tree

/-! ## Claim theorems on the executed traces -/

/-- C1 (code bug): the last-write-wins round trip fails.  Running the
five-put trace `(10,100), (20,100), (30,100), (25,250000), (40,100)`
through the KVS façade (flush threshold 6, so no flush occurs), the final
`get 30` returns `none` even though the last — and only — operation on key
`30` was `put 30 100` and no delete ever ran: the oversized fourth put
splits the head leaf twice, and the routed-split branch of `Leaf::insert`
(the `// TODO: when the new leaf is split` line of `src/fptree/leaf.rs`)
discards the inner split key and skips `self`'s header commit, leaving the
leaf that holds key `30` unreachable from the tree root. -/
theorem claim_C1_lww_round_trip_fails :
    kvsPut keyLen1 valLen hash0 16 (kvsNew 6) 10 100 = some c1s1 ∧
    kvsPut keyLen1 valLen hash0 16 c1s1 20 100 = some c1s2 ∧
    kvsPut keyLen1 valLen hash0 16 c1s2 30 100 = some c1s3 ∧
    kvsPut keyLen1 valLen hash0 16 c1s3 25 250000 = some c1s4 ∧
    kvsPut keyLen1 valLen hash0 16 c1s4 40 100 = some c1s5 ∧
    kvsGet keyLen1 valLen hash0 0 16 c1s5 30 = some none :=
  ⟨rfl, rfl, rfl, rfl, rfl, rfl⟩

/-- C2 (code bug): the leaf-chain order invariant is violated.  The same
five inserts at the tree level leave a four-leaf chain whose concatenated
per-leaf sorted keys read `[10, 20, 25, 40, 30]` — not globally sorted:
the second split of the oversized fourth insert chains the new leaf
(holding `25`) after the routed leaf, but the routed-split branch of
`Leaf::insert` drops that split key, so the later insert of `40` is routed
by the stale separator and lands before `30` in chain order. -/
theorem claim_C2_chain_order_violated :
    treePut keyLen1 valLen hash0 16 FpTree.new 10 100 = some c2t1 ∧
    treePut keyLen1 valLen hash0 16 c2t1 20 100 = some c2t2 ∧
    treePut keyLen1 valLen hash0 16 c2t2 30 100 = some c2t3 ∧
    treePut keyLen1 valLen hash0 16 c2t3 25 250000 = some c2t4 ∧
    treePut keyLen1 valLen hash0 16 c2t4 40 100 = some c2t5 ∧
    chainSortedKeys 10 c2t5.heap 0 = [10, 20, 25, 40, 30] ∧
    ¬ List.Sorted (· ≤ ·) [10, 20, 25, 40, 30] :=
  ⟨rfl, rfl, rfl, rfl, rfl, rfl, by decide⟩

/-- C9 (code bug): a put of the empty value is *not* always read back as
`None`.  In the eight-put trace (flush threshold 1, key `99` has a 61500-
byte key string), the final `put 99 (empty)` is routed through a split
whose split key the routed branch of `Leaf::insert` discards without
committing `self`'s header, so the tombstone lands in a leaf unreachable
from the committed chain; the flush then registers a table built from the
stale committed chain, and the final `get 99` returns the value `100`
written seven operations earlier instead of `None`. -/
theorem claim_C9_put_empty_not_delete :
    kvsPut keyLen9 valLen hash0 16 (kvsNew 1) 99 100 = some c9s1 ∧
    kvsPut keyLen9 valLen hash0 16 c9s1 10 100 = some c9s2 ∧
    kvsPut keyLen9 valLen hash0 16 c9s2 20 100 = some c9s3 ∧
    kvsPut keyLen9 valLen hash0 16 c9s3 30 185000 = some c9s4 ∧
    kvsPut keyLen9 valLen hash0 16 c9s4 10 100 = some c9s5 ∧
    kvsPut keyLen9 valLen hash0 16 c9s5 20 100 = some c9s6 ∧
    kvsPut keyLen9 valLen hash0 16 c9s6 30 190000 = some c9s7 ∧
    kvsPut keyLen9 valLen hash0 16 c9s7 99 0 = some c9s8 ∧
    kvsGet keyLen9 valLen hash0 0 16 c9s8 99 = some (some 100) :=
  ⟨rfl, rfl, rfl, rfl, rfl, rfl, rfl, rfl, rfl⟩

/-- C3 (counterexample): inserting `(99, 0)` into the single full leaf of
`c3heap` splits it with split key `20 ≤ 99`, yet the pair is *not* in the
new sibling (leaf 1, reached from leaf 0's `next`, holds only `[20]`): the
routed insert split the sibling again and the pair sits in leaf 2.  The
call does return `Some 20`. -/
theorem claim_C3_counterexample :
    (leafInsert keyLen9 valLen hash0 16 c3heap 0 99 0).map
        (fun r => (r.2, r.1.map fun o =>
          (o.ram.next, ((leafPairs o.ram).map (·.1)).insertionSort (· ≤ ·))))
      = some (some 20,
          [(some 1, [10]), (some 2, [20]), (none, [30, 99])]) ∧
    (20 : Nat) ≤ 99 ∧ (99 : Nat) ∉ [(20 : Nat)] :=
  ⟨rfl, by decide, by decide⟩

end Amphis.Tree
